import Mathlib

/-!
Verification of the `whereami` indentation-based context tool.

The development shallowly embeds `src/whereami.cpp`:
* the byte-level line segmenter (tab expansion, CR handling, block comments),
* the per-line eligibility classification (`#`, `//`, label form, `case`),
* the indentation-stack builder `process_indentation_of_current_line`,
* the per-query context walk with the boring-line skip,
* the label formatter `print_context` and the elision layer,
* the command-line number parsing via `strtoul`.

Machine integers are modelled as `Nat`/`Int`; bytes are `Char` values with
codes below 256.  C `while` loops whose termination rests on data invariants
are modelled with an explicit fuel argument that is large enough whenever the
invariant (proved below) holds.
-/

namespace Whereami

/-! ## Character helpers (C `ctype` in the default locale, ASCII) -/

def nulC : Char := Char.ofNat 0

def vtC : Char := Char.ofNat 11

def ffC : Char := Char.ofNat 12

def isspaceC (c : Char) : Bool :=
  c == ' ' || c == '\t' || c == '\n' || c == vtC || c == ffC || c == '\r'

def isalnumC (c : Char) : Bool :=
  ('0' ≤ c && c ≤ '9') || ('a' ≤ c && c ≤ 'z') || ('A' ≤ c && c ≤ 'Z')

def isIdentC (c : Char) : Bool :=
  isalnumC c || c == '_'

/-- Tab advance: `column++; column = tabsize * ((column + tabsize - 1) / tabsize)`
with `tabsize = 8`. -/
def tabNext (col : Nat) : Nat := 8 * ((col + 8) / 8)

/-! ## Line records and line events

`LineRec` mirrors `struct LineInfo` (`outer_index`, `indentation`,
`start_offset`).  The extra fields record, for each line, the text the mutated
buffer holds from `start_offset` up to the first NUL, and which code path
finalized the line: `elig` is the `may_become_context` flag at the moment
`process_indentation_of_current_line` ran for the line, `blank` marks the
`whitespace_only_line` path, `copen` marks the line on which a block comment
ran over its first newline. -/

structure LineRec where
  outer : Int
  indentation : Nat
  start_offset : Nat
  text : List Char
  elig : Bool
  blank : Bool
  copen : Bool
deriving DecidableEq

def dfltRec : LineRec :=
  { outer := -1, indentation := 0, start_offset := 0, text := [],
    elig := false, blank := false, copen := false }

instance : Inhabited LineRec := ⟨dfltRec⟩

/-- Which scanner path finalized a line.
`blank` = `whitespace_only_line`; `copen` = first newline inside a block
comment (the line that opened the comment, processed with
`may_close_context = true`); `cinner` = later newlines inside the comment
(`may_close_context = false`); `normal elig` = ordinary line whose
`may_become_context` flag was `elig`; `contin` = the trailing-code line after
a multi-line comment closes (processed with both flags false). -/
inductive EvKind where
  | blank : EvKind
  | copen : EvKind
  | cinner : EvKind
  | normal : Bool → EvKind
  | contin : EvKind
deriving DecidableEq

structure Ev where
  off : Nat
  col : Nat
  kind : EvKind
  text : List Char
deriving DecidableEq

/-- The (`may_become_context`, `may_close_context`) pair passed to
`process_indentation_of_current_line` for each kind of line. -/
def evFlags : EvKind → Bool × Bool
  | .blank => (false, false)
  | .copen => (false, true)
  | .cinner => (false, false)
  | .normal e => (e, e)
  | .contin => (false, false)

/-! ## The indentation-stack builder -/

/-- Carried parser state: `outer_index`, `prev_indentation`,
`prev_valid_index`, and the `LineInfo` array built so far. -/
structure BState where
  outer : Int
  prevInd : Nat
  prevValid : Int
  recs : List LineRec
deriving DecidableEq

def initB : BState := { outer := -1, prevInd := 0, prevValid := -1, recs := [] }

/-- The context-popping `while` loop of `process_indentation_of_current_line`:
`while (outer_index >= 0 && column <= line_info_array[outer_index].indentation)
  outer_index = line_info_array[outer_index].outer_index;`
The fuel argument is an upper bound on the iteration count; under the proved
invariant (parent links strictly precede their holder) `recs.length + 1`
iterations always suffice. -/
def popLoop (recs : List LineRec) (col : Nat) : Nat → Int → Int
  | 0, o => o
  | fuel + 1, o =>
    if 0 ≤ o ∧ col ≤ (recs.getD o.toNat dfltRec).indentation then
      popLoop recs col fuel (recs.getD o.toNat dfltRec).outer
    else o

/-- The branch structure of `process_indentation_of_current_line`: pop
contexts, or descend to `prev_valid_index`, or keep `outer_index`. -/
def coreStep (st : BState) (mayCtx mayClose : Bool) (col : Nat) : Int :=
  if mayClose = true ∧ col < st.prevInd then
    popLoop st.recs col (st.recs.length + 1) st.outer
  else if mayCtx = true ∧ 1 ≤ st.recs.length ∧ st.prevInd < col then
    st.prevValid
  else st.outer

/-- The `LineInfo` entry stored for a line.  For `blank` and `contin` events
the recorded indentation is the carried `prev_indentation`; for the other
kinds it is the line's column. -/
def stepRec (st : BState) (ev : Ev) : LineRec :=
  { outer := coreStep st (evFlags ev.kind).1 (evFlags ev.kind).2 ev.col,
    indentation :=
      match ev.kind with
      | .blank => st.prevInd
      | .contin => st.prevInd
      | _ => ev.col,
    start_offset := ev.off, text := ev.text,
    elig := (match ev.kind with | .normal e => e | _ => false),
    blank := (ev.kind = EvKind.blank : Bool),
    copen := (ev.kind = EvKind.copen : Bool) }

/-- One step of the builder: `process_indentation_of_current_line` together
with the store into the current line's `LineInfo` entry.  The prev-state
update mirrors `if (may_become_context || may_close_context)
{ prev_indentation = column; prev_valid_index = line - 1; }` (the
assignments inside the popping loop are always overwritten by this tail
update, because the loop requires `may_close_context`). -/
def buildStep (st : BState) (ev : Ev) : BState :=
  if (evFlags ev.kind).1 = true ∨ (evFlags ev.kind).2 = true then
    { outer := (stepRec st ev).outer, prevInd := ev.col,
      prevValid := (st.recs.length : Int), recs := st.recs ++ [stepRec st ev] }
  else
    { outer := (stepRec st ev).outer, prevInd := st.prevInd,
      prevValid := st.prevValid, recs := st.recs ++ [stepRec st ev] }

def build (evs : List Ev) : BState := evs.foldl buildStep initB

/-! ## The line segmenter

The scanner walks the malloc'd buffer character by character; reading past
the end of the list behaves like reading the terminating NUL, so every peek
uses `getD nulC`.  Offsets (`ptr - text`) are threaded as the `pos`
argument. -/

/-- The text the mutated buffer holds from a position to the first NUL:
every `'\n'` was replaced by NUL, as was a `'\r'` directly before a `'\n'`;
a lone `'\r'` stays. -/
def lineTextFrom : List Char → List Char
  | [] => []
  | c :: rest =>
    if c == nulC || c == '\n' then []
    else if c == '\r' && rest.head?.getD nulC == '\n' then []
    else c :: lineTextFrom rest

/-- Number of characters the end-of-line skip consumes
(`while (*ptr && *ptr != '\n' && (*ptr != '\r' || ptr[1] != '\n')) ptr++;`
followed by consuming an optional `"\r\n"` or `"\n"`). -/
def skipRestLen : List Char → Nat
  | [] => 0
  | c :: rest =>
    if c == nulC then 0
    else if c == '\n' then 1
    else if c == '\r' && rest.head?.getD nulC == '\n' then 2
    else 1 + skipRestLen rest

/-- The `"identifier:"`-form lookahead (goto labels, `public:` etc.).
State: `ss` = `seen_space`, `sc` = `seen_colon`; the result is
`seen_colon && only_one_identifier`. -/
def labelLoop : List Char → Bool → Bool → Bool
  | [], _, sc => sc
  | c :: rest, ss, sc =>
    if c == nulC || c == '\n' || (c == '\r' && rest.head?.getD nulC == '\n') then sc
    else if (ss || sc) && ((!sc || !(c == ':')) && !isspaceC c) then false
    else if c == ':' then labelLoop rest ss true
    else if isspaceC c then labelLoop rest true sc
    else if !isIdentC c then false
    else labelLoop rest ss sc

def isLabelForm (rest : List Char) : Bool := labelLoop rest false false

/-- `memcmp(ptr - 1, "case", 4) == 0 && isspace(ptr[3])` where `ch` is the
character at `ptr - 1`. -/
def isCaseLine (ch : Char) (rest : List Char) : Bool :=
  ch == 'c' && rest.take 3 == ['a', 's', 'e'] && isspaceC (rest.getD 3 nulC)

/-- Result of scanning the inside of a `/* ... */` comment: the events for
the newlines crossed, the number of characters consumed (including a closing
`*/`), whether the comment was closed, and whether it contained a newline. -/
structure CScan where
  evs : List Ev
  n : Nat
  closed : Bool
  seenNL : Bool

/-- `while (*ptr && (ptr[0] != '*' || ptr[1] != '/'))` over the comment body.
Each newline inside the comment finalizes the pending line: the first one with
`may_close_context = true` (kind `copen`), later ones with it false (kind
`cinner`); the recorded indentation is the column saved when the comment
opened, and `start_offset` points at the newline, which is replaced by NUL,
so the stored text is empty. -/
def commentScan : List Char → Nat → Nat → Bool → CScan
  | [], _, _, snl => ⟨[], 0, false, snl⟩
  | c :: rest, pos, col, snl =>
    if c == nulC then ⟨[], 0, false, snl⟩
    else if c == '*' && rest.head?.getD nulC == '/' then ⟨[], 2, true, snl⟩
    else if c == '\n' then
      let k : EvKind := if snl then EvKind.cinner else EvKind.copen
      let r := commentScan rest (pos + 1) col true
      ⟨{ off := pos, col := col, kind := k, text := [] } :: r.evs, r.n + 1, r.closed, r.seenNL⟩
    else
      let r := commentScan rest (pos + 1) col snl
      ⟨r.evs, r.n + 1, r.closed, r.seenNL⟩

/-- Whitespace skip after a one-line comment closes
(`while (*ptr == ' ' || *ptr == '\t' || *ptr == '\r')`), returning the count
and the last character skipped (a skipped `'\r'` is replaced by NUL). -/
def wsSkip : List Char → Nat × Option Char
  | [] => (0, none)
  | c :: rest =>
    if c == ' ' || c == '\t' || c == '\r' then
      let r := wsSkip rest
      (r.1 + 1, some (r.2.getD c))
    else (0, none)

/-- The `first_nonwhitespace_character` path: run the `//`, label-form and
`case` checks on the current `may_become_context` flag and produce the line's
event.  `tHead` is the character the mutated buffer holds at `start_offset`
(`none` when that position was a `'\r'` that has been replaced by NUL). -/
def normalEvent (ch : Char) (rest : List Char) (off col : Nat) (mayCtx : Bool)
    (tHead : Option Char) : Ev :=
  let m1 := if ch == '/' && rest.head?.getD nulC == '/' then false else mayCtx
  let m2 := if m1 && isLabelForm rest then false else m1
  let m3 := if m2 && isCaseLine ch rest then false else m2
  { off := off, col := col, kind := EvKind.normal m3,
    text := match tHead with | none => [] | some c => c :: lineTextFrom rest }

/-- The main scanner loop (`while (*ptr)`), producing one event per finalized
line.  `pos` is the offset of the head of `l`; `col` is the current column;
`mayCtx` is the running `may_become_context` flag.  The fuel argument only
bounds the recursion depth; each iteration consumes at least one character,
so `l.length + 1` fuel is always enough (`segMain_fuel` below). -/
def segMain : Nat → List Char → Nat → Nat → Bool → List Ev
  | 0, _, _, _, _ => []
  | fuel + 1, l, pos, col, mayCtx =>
    match l with
    | [] => []
    | ch :: rest =>
      if ch == nulC then []
      else if ch == '\n' then
        { off := pos, col := col, kind := EvKind.blank, text := [] }
          :: segMain fuel rest (pos + 1) 0 true
      else if ch == '\t' then segMain fuel rest (pos + 1) (tabNext col) mayCtx
      else if ch == ' ' then segMain fuel rest (pos + 1) (col + 1) mayCtx
      else if ch == '\r' then segMain fuel rest (pos + 1) col mayCtx
      else if ch == '/' && rest.head?.getD nulC == '*' then
        let rest2 := rest.tail
        let cs := commentScan rest2 (pos + 2) col false
        let rest3 := rest2.drop cs.n
        let pos3 := pos + 2 + cs.n
        if !cs.closed then cs.evs
        else if cs.seenNL then
          let m := skipRestLen rest3
          cs.evs
            ++ { off := pos3, col := col, kind := EvKind.contin,
                 text := lineTextFrom rest3 }
            :: segMain fuel (rest3.drop m) (pos3 + m) 0 true
        else
          let ws := wsSkip rest3
          let rest4 := rest3.drop ws.1
          let pos4 := pos3 + ws.1
          if rest4.head?.getD nulC == '\n' then
            cs.evs
              ++ { off := pos4, col := col, kind := EvKind.blank, text := [] }
              :: segMain fuel rest4.tail (pos4 + 1) 0 true
          else if rest4.head?.getD nulC == nulC then cs.evs
          else
            let tHead : Option Char :=
              match ws.2 with
              | none => some '/'
              | some w => if w == '\r' then none else some w
            let m := skipRestLen rest4
            cs.evs
              ++ normalEvent '/' rest4 (pos4 - 1) col mayCtx tHead
              :: segMain fuel (rest4.drop m) (pos4 + m) 0 true
      else
        let mc := if ch == '#' then false else mayCtx
        let m := skipRestLen rest
        normalEvent ch rest pos col mc (some ch)
          :: segMain fuel (rest.drop m) (pos + 1 + m) 0 true

/-! ## The whole front end: NUL handling, line counting, and the pipeline -/

def hasNul (l : List Char) : Bool := l.any (fun c => c == nulC)

/-- The prefix of the buffer before its first NUL byte. -/
def preNul (l : List Char) : List Char := l.takeWhile (fun c => !(c == nulC))

/-- `n_lines`: the number of `'\n'` bytes before the first NUL, plus one extra
line when the file is nonempty, NUL-free and lacks a trailing newline. -/
def nLines (file : List Char) : Nat :=
  (preNul file).countP (fun c => c == '\n') +
    (if !hasNul file && !file.isEmpty && !(file.getLastD nulC == '\n') then 1 else 0)

/-- The buffer as scanned: when the file is nonempty, NUL-free and does not
end in a newline, an extra `'\n'` is appended
(`text[n_bytes_read] = '\n'`). -/
def preprocessed (file : List Char) : List Char :=
  if !hasNul file && !file.isEmpty && !(file.getLastD nulC == '\n') then file ++ ['\n']
  else file

def eventsOf (file : List Char) : List Ev :=
  segMain ((preprocessed file).length + 1) (preprocessed file) 0 0 true

def recsOf (file : List Char) : List LineRec := (build (eventsOf file)).recs

/-! ## Query engine: boring-line skip and the context walk -/

/-- `line_is_boring`: the character the mutated buffer holds at the line's
`start_offset` is `'{'`. -/
def lineIsBoring (r : LineRec) : Bool := r.text.head?.getD nulC == Char.ofNat 123

/-- The inner backward scan of the boring skip:
`while (outer > line_info_array && outer->indentation > indent) outer--;`
starting from position `p`. -/
def skipBack (recs : List LineRec) (indent : Nat) : Nat → Nat
  | 0 => 0
  | p + 1 =>
    if indent < (recs.getD (p + 1) dfltRec).indentation then skipBack recs indent p
    else p + 1

/-- The outer boring-skip loop
(`while (outer > line_info_array && line_is_boring(outer, text))`), with the
threshold `indent` fixed at the original ancestor's indentation.  Each
iteration strictly decreases the position, so fuel `p` suffices. -/
def boringLoop (recs : List LineRec) (indent : Nat) : Nat → Nat → Nat
  | 0, p => p
  | fuel + 1, p =>
    if 0 < p ∧ lineIsBoring (recs.getD p dfltRec) = true then
      boringLoop recs indent fuel (skipBack recs indent (p - 1))
    else p

/-- Resolve an ancestor through the boring skip: `indent` is captured from the
ancestor itself before the loop runs. -/
def resolveBoring (recs : List LineRec) (p : Nat) : Nat :=
  boringLoop recs (recs.getD p dfltRec).indentation p p

/-- The per-query walk
(`for (outer = line_info; outer->outer_index >= 0;) { outer = array +
outer->outer_index; <boring skip>; <emit>; }`): note that after the boring
skip the next link followed is the resolved line's `outer_index`.  The emitted
indices are returned innermost first.  Fuel: the walk strictly descends, so
`recs.length + 1` suffices under the parent-link invariant. -/
def walkLoop (recs : List LineRec) : Nat → Nat → List Nat
  | 0, _ => []
  | fuel + 1, cur =>
    if 0 ≤ (recs.getD cur dfltRec).outer then
      resolveBoring recs (recs.getD cur dfltRec).outer.toNat ::
        walkLoop recs fuel (resolveBoring recs (recs.getD cur dfltRec).outer.toNat)
    else []

/-- The finalized context array for a target index, outermost first (the fill
pass writes the walk backwards from the end of the array). -/
def chainOf (recs : List LineRec) (target : Nat) : List Nat :=
  (walkLoop recs (recs.length + 1) target).reverse

/-- The spec's description of the chain (claim C2): collect the raw ancestor
chain by following the stored `outer_index` links only, apply the boring skip
to each raw ancestor, and reverse. -/
def rawAncestors (recs : List LineRec) : Nat → Nat → List Nat
  | 0, _ => []
  | fuel + 1, cur =>
    if 0 ≤ (recs.getD cur dfltRec).outer then
      (recs.getD cur dfltRec).outer.toNat ::
        rawAncestors recs fuel (recs.getD cur dfltRec).outer.toNat
    else []

def specChainOf (recs : List LineRec) (target : Nat) : List Nat :=
  (((rawAncestors recs (recs.length + 1) target).map (resolveBoring recs))).reverse

/-- The spec's reading of the boring skip with a per-step threshold (claim
C3): each replacement scans for the nearest strictly earlier line whose
indentation is at most the indentation of the current boring line. -/
def nearestLE (recs : List LineRec) (indent : Nat) (p : Nat) : Nat :=
  (((List.range p).reverse).find? (fun q => (recs.getD q dfltRec).indentation ≤ indent)).getD 0

def claimBoringLoop (recs : List LineRec) : Nat → Nat → Nat
  | 0, p => p
  | fuel + 1, p =>
    if 0 < p ∧ lineIsBoring (recs.getD p dfltRec) = true then
      claimBoringLoop recs fuel (nearestLE recs (recs.getD p dfltRec).indentation p)
    else p

def claimResolveBoring (recs : List LineRec) (p : Nat) : Nat :=
  claimBoringLoop recs p p

/-- The fixed-threshold boring skip written the spec's way (nearest earlier
line with small enough indentation, index 0 as a backstop), used to state the
amended claim C3. -/
def fixedNearestLoop (recs : List LineRec) (indent : Nat) : Nat → Nat → Nat
  | 0, p => p
  | fuel + 1, p =>
    if 0 < p ∧ lineIsBoring (recs.getD p dfltRec) = true then
      fixedNearestLoop recs indent fuel (nearestLE recs indent p)
    else p

def fixedResolveBoring (recs : List LineRec) (p : Nat) : Nat :=
  fixedNearestLoop recs (recs.getD p dfltRec).indentation p p

/-! ## The context formatter (`print_context`) -/

/-- `is_control_flow`: the stored text begins with one of the six control
keywords followed by a space (a chain of `strncmp` prefix tests on the
unstripped `ctx->text`). -/
def isCtrl (t : List Char) : Bool :=
  "if ".toList.isPrefixOf t || "do ".toList.isPrefixOf t ||
  "for ".toList.isPrefixOf t || "case ".toList.isPrefixOf t ||
  "while ".toList.isPrefixOf t || "switch ".toList.isPrefixOf t

/-- `maybe_skip_substr` iterated: strip a leading `"namespace "` repeatedly.
Each strip removes ten characters, so fuel `t.length` always suffices. -/
def stripNS : Nat → List Char → List Char
  | 0, t => t
  | fuel + 1, t =>
    if "namespace ".toList.isPrefixOf t then stripNS fuel (t.drop 10) else t

def stripNamespaces (t : List Char) : List Char := stripNS t.length t

/-- The mutable locals of `print_context`'s copying loop. -/
structure PCState where
  couldFn : Bool
  identLen : Nat
  beforeSpace : Char
  prevWasSpace : Bool
  nChars : Nat
deriving DecidableEq

def dollarC : Char := '$'

/-- The copying loop of `print_context`.  Returns the emitted characters.
Whitespace resets the identifier run and is not emitted; `//` stops the
rendering; an identifier run longer than six characters emits a single `'$'`
at its seventh character when the line is not a function-name candidate; an
opening parenthesis on a function-name-candidate line is emitted and stops
the rendering; after each non-whitespace character, a control-flow line stops
once at least twenty characters have been emitted. -/
def pcRun (ctrl : Bool) : PCState → List Char → List Char
  | _, [] => []
  | s, ch :: rest =>
    if ch == nulC then []
    else if isspaceC ch then
      pcRun ctrl { s with identLen := 0, prevWasSpace := true } rest
    else if ch == '/' && rest.head?.getD nulC == '/' then []
    else if isIdentC ch then
      let spc : List Char := if s.prevWasSpace && isalnumC s.beforeSpace then [' '] else []
      if !s.couldFn && s.identLen == 6 then
        let s' : PCState :=
          { couldFn := s.couldFn, identLen := s.identLen + 1, beforeSpace := dollarC,
            prevWasSpace := false, nChars := s.nChars + spc.length + 1 }
        spc ++ dollarC :: (if ctrl && 20 ≤ s'.nChars then [] else pcRun ctrl s' rest)
      else if s.couldFn || s.identLen < 6 then
        let s' : PCState :=
          { couldFn := s.couldFn, identLen := s.identLen + 1, beforeSpace := ch,
            prevWasSpace := false, nChars := s.nChars + spc.length + 1 }
        spc ++ ch :: (if ctrl && 20 ≤ s'.nChars then [] else pcRun ctrl s' rest)
      else
        let s' : PCState :=
          { couldFn := s.couldFn, identLen := s.identLen + 1, beforeSpace := dollarC,
            prevWasSpace := false, nChars := s.nChars + spc.length }
        spc ++ (if ctrl && 20 ≤ s'.nChars then [] else pcRun ctrl s' rest)
    else
      if ch == '(' && s.couldFn then [ch]
      else
        let s' : PCState :=
          { couldFn := s.couldFn, identLen := 0, beforeSpace := ch,
            prevWasSpace := false, nChars := s.nChars + 1 }
        ch :: (if ctrl && 20 ≤ s'.nChars then [] else pcRun ctrl s' rest)

def initPC (ctrl : Bool) : PCState :=
  { couldFn := !ctrl, identLen := 0, beforeSpace := nulC, prevWasSpace := false, nChars := 0 }

/-- The rendered label of a context line: classify control flow on the stored
text, then strip `"namespace "` prefixes, then run the copying loop. -/
def renderLabel (t0 : List Char) : List Char :=
  pcRun (isCtrl t0) (initPC (isCtrl t0)) (stripNamespaces t0)

/-! ## Decimal rendering of `printf("%u")` and the output assembly -/

def digitChar (n : Nat) : Char := Char.ofNat (48 + n)

def natDigitsAux : Nat → Nat → List Char → List Char
  | 0, _, acc => acc
  | fuel + 1, n, acc =>
    if n < 10 then digitChar n :: acc
    else natDigitsAux fuel (n / 10) (digitChar (n % 10) :: acc)

def natDigits (n : Nat) : List Char := natDigitsAux (n + 1) n []

/-- Right-justify in a field of width `w` with spaces (`%5u` etc.). -/
def padTo (w : Nat) (s : List Char) : List Char :=
  List.replicate (w - s.length) ' ' ++ s

/-- `printf("..%u: ", 1 + ctx->index)` followed by the rendered label. -/
def printContext (idx : Nat) (t : List Char) : List Char :=
  '.' :: '.' :: (natDigits (idx + 1) ++ ':' :: ' ' :: renderLabel t)

/-- `printf("%5u: %5u<- %2u: ", 1 + index, 1 + outer_index, indentation)`. -/
def headerOf (recs : List LineRec) (i : Nat) : List Char :=
  let r := recs.getD i dfltRec
  padTo 5 (natDigits (i + 1)) ++ ':' :: ' ' ::
    (padTo 5 (natDigits (1 + r.outer).toNat) ++ '<' :: '-' :: ' ' ::
      (padTo 2 (natDigits r.indentation) ++ ':' :: ' ' :: []))

/-- `index - ctx->index < 20` in `uint32_t` arithmetic. -/
def elide (target c : Nat) : Bool :=
  ((target : Int) - (c : Int)) % (2 ^ 32) < 20

/-- The printing loop over the context array with its `skipped_previous`
flag: an elided context sets the flag, a printed one clears it. -/
def emitLoop (recs : List LineRec) (target : Nat) : List Nat → Bool → List Char × Bool
  | [], sk => ([], sk)
  | c :: cs, _ =>
    if elide target c then emitLoop recs target cs true
    else
      let r := emitLoop recs target cs false
      (printContext c (recs.getD c dfltRec).text ++ r.1, r.2)

/-- Everything printed for one line index: optional fixed-width header (only
in all-lines mode), the non-elided contexts, one `"..."` marker when
`skipped_previous` survives the loop, and a newline only in all-lines mode. -/
def lineOutput (recs : List LineRec) (queryLine : Nat) (index : Nat) : List Char :=
  let e := emitLoop recs index (chainOf recs index) false
  (if queryLine == 0 then headerOf recs index else [])
    ++ e.1
    ++ (if e.2 then '.' :: '.' :: '.' :: [] else [])
    ++ (if queryLine == 0 then ['\n'] else [])

/-- `begin_index`/`end_index` selection from the query line. -/
def queryRange (queryLine numLines : Nat) : Nat × Nat :=
  if queryLine ≠ 0 then (queryLine - 1, queryLine) else (0, numLines)

/-- The program's entire standard output for a parsed file and query line. -/
def programOutput (file : List Char) (queryLine : Nat) : List Char :=
  let recs := recsOf file
  let be := queryRange queryLine (nLines file)
  ((List.range' be.1 (be.2 - be.1)).map (lineOutput recs queryLine)).flatten

/-! ## Command-line number parsing (`strtoul(argv[2], &end, 10)`) -/

structure StrtoulR where
  value : Nat
  endIdx : Nat
deriving DecidableEq

def ulongMax : Nat := 2 ^ 64 - 1

def digitVal (c : Char) : Nat := c.toNat - 48

/-- Length of the leading whitespace `strtoul` skips. -/
def wsLen (s : List Char) : Nat := (s.takeWhile isspaceC).length

def afterWs (s : List Char) : List Char := s.drop (wsLen s)

/-- Whether an optional single sign follows the whitespace. -/
def hasSign (s : List Char) : Bool :=
  (afterWs s).head?.getD nulC == '+' || (afterWs s).head?.getD nulC == '-'

def signLen (s : List Char) : Nat := if hasSign s = true then 1 else 0

/-- The maximal digit run after whitespace and sign. -/
def digitsPart (s : List Char) : List Char :=
  ((afterWs s).drop (signLen s)).takeWhile Char.isDigit

/-- What remains after the digit run. -/
def afterDigits (s : List Char) : List Char :=
  ((afterWs s).drop (signLen s)).dropWhile Char.isDigit

def digitsValue (l : List Char) : Nat :=
  l.foldl (fun a c => a * 10 + digitVal c) 0

/-- C17 `strtoul` with base 10 on a 64-bit `unsigned long`: skip whitespace,
an optional single sign, then a maximal run of decimal digits; saturate at
`ULONG_MAX` on overflow; negate in the unsigned type for a `'-'` sign.  When
no digits are found the end pointer is the original string start. -/
def strtoul10 (s : List Char) : StrtoulR :=
  if (digitsPart s).length = 0 then { value := 0, endIdx := 0 }
  else
    { value :=
        if (afterWs s).head?.getD nulC == '-' then
          (2 ^ 64 - min (digitsValue (digitsPart s)) ulongMax) % 2 ^ 64
        else min (digitsValue (digitsPart s)) ulongMax,
      endIdx := wsLen s + signLen s + (digitsPart s).length }

/-- The `uint32_t query_line` the program stores. -/
def queryLineOf (s : List Char) : Nat := (strtoul10 s).value % 2 ^ 32

/-- `if (end && *end != 0) exit_error(...)`: a usage error is reported
exactly when the end pointer does not rest on the terminating NUL. -/
def usageErr (s : List Char) : Bool :=
  !(s.getD (strtoul10 s).endIdx nulC == nulC)

/-! ## Spec-side definitions used to state the claims -/

/-- The six control keywords of the spec (keyword plus following space). -/
def ctrlKwList : List (List Char) :=
  ["if ", "do ", "for ", "case ", "while ", "switch "].map String.toList

/-- The spec's control classification on a given text. -/
def specCtrlB (t : List Char) : Bool := ctrlKwList.any (fun k => k.isPrefixOf t)

/-- "A non-negative base-10 integer": nonempty and all decimal digits. -/
def isNonNegDecimalB (s : List Char) : Bool := !s.isEmpty && s.all Char.isDigit

/-- What `strtoul` accepts without trailing junk: the empty string, or
optional whitespace, an optional sign, then one or more digits and nothing
else. -/
def acceptedArgB (s : List Char) : Bool :=
  s.isEmpty || (!(digitsPart s).isEmpty && (afterDigits s).isEmpty)

/-- The accessor forms used throughout the statements. -/
def indOf (recs : List LineRec) (i : Nat) : Nat := (recs.getD i dfltRec).indentation

def outOf (recs : List LineRec) (i : Nat) : Int := (recs.getD i dfltRec).outer

/-- Parent links strictly precede their holder. -/
def linksOK (recs : List LineRec) : Prop :=
  ∀ i, i < recs.length → -1 ≤ outOf recs i ∧ outOf recs i < (i : Int)

/-- The indentation of an eligible non-blank line strictly exceeds its
parent's. -/
def parentIndOK (recs : List LineRec) : Prop :=
  ∀ i, i < recs.length → (recs.getD i dfltRec).elig = true →
    (recs.getD i dfltRec).blank = false → 0 ≤ outOf recs i →
    indOf recs (outOf recs i).toNat < indOf recs i

/-- The running invariant of the builder state. -/
def stInv (st : BState) : Prop :=
  (-1 ≤ st.outer ∧ st.outer < (st.recs.length : Int)) ∧
  (-1 ≤ st.prevValid ∧ st.prevValid < (st.recs.length : Int)) ∧
  linksOK st.recs ∧
  (0 ≤ st.outer → indOf st.recs st.outer.toNat < st.prevInd) ∧
  (0 ≤ st.prevValid → indOf st.recs st.prevValid.toNat = st.prevInd) ∧
  parentIndOK st.recs ∧
  (0 ≤ st.prevValid →
    (st.recs.getD st.prevValid.toNat dfltRec).elig = true ∨
    (st.recs.getD st.prevValid.toNat dfltRec).copen = true)

/-! # Lemmas and theorems -/

theorem getD_snoc_lt (l : List LineRec) (r : LineRec) (i : Nat) (h : i < l.length) :
    (l ++ [r]).getD i dfltRec = l.getD i dfltRec :=
  List.getD_append _ _ _ _ h

theorem getD_snoc_len (l : List LineRec) (r : LineRec) :
    (l ++ [r]).getD l.length dfltRec = r := by
  rw [List.getD_append_right _ _ _ _ (le_refl _)]
  simp

/-- The `may_become_context`/`may_close_context` pairs that actually occur:
the open flag implies the close flag. -/
theorem evFlags_imp (k : EvKind) : (evFlags k).1 = true → (evFlags k).2 = true := by
  cases k <;> simp [evFlags]

/-- Behaviour of the context-popping loop under the parent-link invariant:
the result stays in range, does not increase, and on exit either no context
remains or the surviving context's indentation is strictly below the
column. -/
theorem popLoop_spec (recs : List LineRec) (col : Nat) (hl : linksOK recs) :
    ∀ fuel o, -1 ≤ o → o < (recs.length : Int) → (o.toNat < fuel ∨ o = -1) →
      -1 ≤ popLoop recs col fuel o ∧ popLoop recs col fuel o ≤ o ∧
        (0 ≤ popLoop recs col fuel o →
          (recs.getD (popLoop recs col fuel o).toNat dfltRec).indentation < col) := by
  intro fuel
  induction fuel with
  | zero =>
    intro o h1 h2 h3
    have ho : o = -1 := by omega
    subst ho
    rw [popLoop]
    refine ⟨le_refl _, le_refl _, ?_⟩
    intro h
    omega
  | succ f ih =>
    intro o h1 h2 h3
    rw [popLoop]
    by_cases hc : 0 ≤ o ∧ col ≤ (recs.getD o.toNat dfltRec).indentation
    · rw [if_pos hc]
      have holt : o.toNat < recs.length := by omega
      have hlk := hl o.toNat holt
      rw [outOf] at hlk
      have h4 : (recs.getD o.toNat dfltRec).outer.toNat < f ∨
          (recs.getD o.toNat dfltRec).outer = -1 := by omega
      have := ih (recs.getD o.toNat dfltRec).outer hlk.1 (by omega) h4
      exact ⟨this.1, by omega, this.2.2⟩
    · rw [if_neg hc]
      refine ⟨h1, le_refl _, ?_⟩
      intro h
      omega

/-- Behaviour of the branch structure of
`process_indentation_of_current_line`: the new `outer_index` stays in range,
and when the prev-state update will run, it is strictly less indented than
the line's column. -/
theorem coreStep_spec (st : BState) (mayCtx mayClose : Bool) (col : Nat)
    (hInv : stInv st) (himp : mayCtx = true → mayClose = true) :
    (-1 ≤ coreStep st mayCtx mayClose col ∧
      coreStep st mayCtx mayClose col < (st.recs.length : Int)) ∧
    ((mayCtx = true ∨ mayClose = true) → 0 ≤ coreStep st mayCtx mayClose col →
      (st.recs.getD (coreStep st mayCtx mayClose col).toNat dfltRec).indentation < col) := by
  obtain ⟨hO, hV, hL, hJ, hH, hP, hE⟩ := hInv
  rw [coreStep]
  by_cases h1 : mayClose = true ∧ col < st.prevInd
  · rw [if_pos h1]
    have := popLoop_spec st.recs col hL (st.recs.length + 1) st.outer hO.1 hO.2 (by omega)
    exact ⟨⟨this.1, by omega⟩, fun _ => this.2.2⟩
  · rw [if_neg h1]
    by_cases h2 : mayCtx = true ∧ 1 ≤ st.recs.length ∧ st.prevInd < col
    · rw [if_pos h2]
      refine ⟨⟨hV.1, hV.2⟩, ?_⟩
      intro _ hv0
      have := hH hv0
      rw [indOf] at this
      omega
    · rw [if_neg h2]
      refine ⟨⟨hO.1, hO.2⟩, ?_⟩
      intro hflag h0
      have hind := hJ h0
      rw [indOf] at hind
      -- flags on and neither branch taken: the close flag holds and
      -- `prevInd ≤ col`, so the carried context is strictly shallower.
      have hcl : mayClose = true := by
        rcases hflag with h | h
        · exact himp h
        · exact h
      have hge : st.prevInd ≤ col := by
        by_contra hlt
        exact h1 ⟨hcl, by omega⟩
      omega

/-- The builder step preserves the invariant. -/
theorem stInv_buildStep (st : BState) (ev : Ev) (hInv : stInv st) :
    stInv (buildStep st ev) := by
  have hcore := coreStep_spec st (evFlags ev.kind).1 (evFlags ev.kind).2 ev.col hInv
      (evFlags_imp ev.kind)
  obtain ⟨hO, hV, hL, hJ, hH, hP, hE⟩ := hInv
  set n := st.recs.length with hn
  set o1 := coreStep st (evFlags ev.kind).1 (evFlags ev.kind).2 ev.col with ho1
  have hrO : (stepRec st ev).outer = o1 := rfl
  have hlink' : linksOK (st.recs ++ [stepRec st ev]) := by
    intro i hi
    rw [List.length_append, List.length_singleton] at hi
    rw [outOf]
    by_cases hlt : i < n
    · rw [getD_snoc_lt _ _ _ hlt]
      have := hL i hlt
      rw [outOf] at this
      exact this
    · have hieq : i = n := by omega
      subst hieq
      rw [getD_snoc_len, hrO]
      exact ⟨hcore.1.1, by omega⟩
  have hpar' : parentIndOK (st.recs ++ [stepRec st ev]) := by
    intro i hi he hb hnn
    rw [List.length_append, List.length_singleton] at hi
    rw [outOf] at hnn ⊢
    rw [indOf, indOf]
    by_cases hlt : i < n
    · rw [getD_snoc_lt _ _ _ hlt] at he hb hnn ⊢
      have hout := hL i hlt
      rw [outOf] at hout
      have houtlt : (st.recs.getD i dfltRec).outer.toNat < n := by omega
      rw [getD_snoc_lt _ _ _ houtlt]
      have := hP i hlt he hb hnn
      rw [outOf, indOf, indOf] at this
      exact this
    · have hieq : i = n := by omega
      subst hieq
      rw [getD_snoc_len] at he hb hnn ⊢
      -- the new record is eligible, so its kind is `normal true` and both
      -- flags are on; its indentation is the column.
      have hkind : ev.kind = EvKind.normal true := by
        cases hk : ev.kind with
        | normal e => rw [stepRec] at he; simp [hk] at he; simp [he, hk]
        | blank => rw [stepRec] at he; simp [hk] at he
        | copen => rw [stepRec] at he; simp [hk] at he
        | cinner => rw [stepRec] at he; simp [hk] at he
        | contin => rw [stepRec] at he; simp [hk] at he
      have hflag : (evFlags ev.kind).1 = true ∨ (evFlags ev.kind).2 = true := by
        rw [hkind]; simp [evFlags]
      have hind : (stepRec st ev).indentation = ev.col := by
        rw [stepRec, hkind]
      rw [hrO, hind]
      have hcol := hcore.2 hflag hnn
      have holt : o1.toNat < n := by
        have := hcore.1.2
        omega
      rw [getD_snoc_lt _ _ _ holt]
      exact hcol
  rw [buildStep]
  by_cases hfl : (evFlags ev.kind).1 = true ∨ (evFlags ev.kind).2 = true
  · rw [if_pos hfl, stInv]
    dsimp only
    refine ⟨?_, ?_, hlink', ?_, ?_, hpar', ?_⟩
    · rw [hrO]
      simp only [List.length_append, List.length_singleton]
      have := hcore.1
      constructor
      · exact this.1
      · omega
    · simp only [List.length_append, List.length_singleton]
      constructor
      · omega
      · omega
    · intro h0
      rw [hrO] at h0 ⊢
      have holt : o1.toNat < n := by
        have := hcore.1.2
        omega
      rw [indOf, getD_snoc_lt _ _ _ holt]
      exact hcore.2 hfl h0
    · intro _
      rw [indOf]
      simp only [Int.toNat_natCast]
      rw [getD_snoc_len]
      -- a flags-on event is `copen` or `normal true`; both record the column.
      cases hk : ev.kind with
      | normal e => simp [stepRec, hk]
      | copen => simp [stepRec, hk]
      | blank => rw [hk] at hfl; simp [evFlags] at hfl
      | cinner => rw [hk] at hfl; simp [evFlags] at hfl
      | contin => rw [hk] at hfl; simp [evFlags] at hfl
    · intro _
      simp only [Int.toNat_natCast]
      rw [getD_snoc_len]
      cases hk : ev.kind with
      | normal e =>
        rw [hk] at hfl
        simp [evFlags] at hfl
        left
        simp [stepRec, hk, hfl]
      | copen =>
        right
        simp [stepRec, hk]
      | blank => rw [hk] at hfl; simp [evFlags] at hfl
      | cinner => rw [hk] at hfl; simp [evFlags] at hfl
      | contin => rw [hk] at hfl; simp [evFlags] at hfl
  · rw [if_neg hfl, stInv]
    dsimp only
    have hout : o1 = st.outer := by
      rw [ho1, coreStep]
      have h1 : ¬((evFlags ev.kind).2 = true ∧ ev.col < st.prevInd) := by
        intro h
        exact hfl (Or.inr h.1)
      have h2 : ¬((evFlags ev.kind).1 = true ∧ 1 ≤ st.recs.length ∧ st.prevInd < ev.col) := by
        intro h
        exact hfl (Or.inl h.1)
      rw [if_neg h1, if_neg h2]
    refine ⟨?_, ?_, hlink', ?_, ?_, hpar', ?_⟩
    · rw [hrO, hout]
      refine ⟨hO.1, ?_⟩
      simp only [List.length_append, List.length_singleton]
      omega
    · refine ⟨hV.1, ?_⟩
      simp only [List.length_append, List.length_singleton]
      omega
    · intro h0
      rw [hrO, hout] at h0 ⊢
      have holt : st.outer.toNat < n := by omega
      rw [indOf, getD_snoc_lt _ _ _ holt]
      have := hJ h0
      rw [indOf] at this
      exact this
    · intro h0
      have holt : st.prevValid.toNat < n := by omega
      rw [indOf, getD_snoc_lt _ _ _ holt]
      have := hH h0
      rw [indOf] at this
      exact this
    · intro h0
      have holt : st.prevValid.toNat < n := by omega
      rw [getD_snoc_lt _ _ _ holt]
      exact hE h0

theorem stInv_init : stInv initB := by
  rw [stInv]
  refine ⟨⟨?_, ?_⟩, ⟨?_, ?_⟩, ?_, ?_, ?_, ?_, ?_⟩ <;>
    simp [initB, linksOK, parentIndOK]

/-- The invariant holds after building any event list. -/
theorem stInv_build (evs : List Ev) : stInv (build evs) := by
  rw [build]
  induction evs using List.reverseRecOn with
  | nil => exact stInv_init
  | append_singleton evs ev ih =>
    rw [List.foldl_append, List.foldl_cons, List.foldl_nil]
    exact stInv_buildStep _ _ ih

theorem linksOK_recsOf (file : List Char) : linksOK (recsOf file) :=
  (stInv_build (eventsOf file)).2.2.1

theorem parentIndOK_recsOf (file : List Char) : parentIndOK (recsOf file) :=
  (stInv_build (eventsOf file)).2.2.2.2.2.1

/-- **C1.**  For every `LineRecord` produced by the indentation-stack builder
on any input file: if the stored `outer_index` is present (non-negative) then
it strictly precedes the line holding it, and for every non-blank,
nesting-eligible line with tab-expanded indentation `c` whose record carries
parent `P`, either `P` is none or the recorded indentation of `P` is strictly
less than `c`. -/
theorem c1_record_invariants (file : List Char) (i : Nat)
    (hi : i < (recsOf file).length) :
    (-1 ≤ outOf (recsOf file) i ∧ outOf (recsOf file) i < (i : Int)) ∧
    (((recsOf file).getD i dfltRec).elig = true →
      ((recsOf file).getD i dfltRec).blank = false →
      0 ≤ outOf (recsOf file) i →
      indOf (recsOf file) (outOf (recsOf file) i).toNat < indOf (recsOf file) i) :=
  ⟨linksOK_recsOf file i hi,
   fun he hb hp => parentIndOK_recsOf file i hi he hb hp⟩

theorem c1_record_invariants_witness :
    1 < (recsOf "a\n  b\n".toList).length ∧
    ((-1 ≤ outOf (recsOf "a\n  b\n".toList) 1 ∧
        outOf (recsOf "a\n  b\n".toList) 1 < (1 : Int)) ∧
      (((recsOf "a\n  b\n".toList).getD 1 dfltRec).elig = true →
        ((recsOf "a\n  b\n".toList).getD 1 dfltRec).blank = false →
        0 ≤ outOf (recsOf "a\n  b\n".toList) 1 →
        indOf (recsOf "a\n  b\n".toList) (outOf (recsOf "a\n  b\n".toList) 1).toNat <
          indOf (recsOf "a\n  b\n".toList) 1)) :=
  ⟨by decide, c1_record_invariants "a\n  b\n".toList 1 (by decide)⟩

/-- **C5, counterexample.**  On the file `"top\n  /* c\n     more */\n    code\n"`
the block comment opening on line 2 runs over its newline, so line 2 is
processed with `may_become_context = false` (not nesting-eligible), yet the
carried `prev_valid_index` is updated to it and the indented line 4 descends
to it: the claim that the prev-state is updated exactly for eligible lines,
and that a descent always links to an eligible line, is false. -/
theorem c5_counterexample :
    outOf (recsOf "top\n  /* c\n     more */\n    code\n".toList) 3 = 1 ∧
    ((recsOf "top\n  /* c\n     more */\n    code\n".toList).getD 1 dfltRec).elig = false ∧
    ((recsOf "top\n  /* c\n     more */\n    code\n".toList).getD 1 dfltRec).blank = false ∧
    ((recsOf "top\n  /* c\n     more */\n    code\n".toList).getD 1 dfltRec).copen = true := by
  decide

/-- **C5 (amended).**  The carried `prev_indentation`/`prev_valid_index` are
updated to the current line's column and index exactly when
`may_become_context` or `may_close_context` holds for the line — that is, for
eligible lines and additionally for the line on which a multi-line block
comment opens — and consequently `prev_valid_index` always names the most
recent line that was either itself eligible or opened a multi-line block
comment (so a later descent links to such a line). -/
theorem c5_prev_state_update :
    (∀ st ev,
      (buildStep st ev).prevInd =
        (if (evFlags ev.kind).1 = true ∨ (evFlags ev.kind).2 = true then ev.col
         else st.prevInd) ∧
      (buildStep st ev).prevValid =
        (if (evFlags ev.kind).1 = true ∨ (evFlags ev.kind).2 = true then
          (st.recs.length : Int)
         else st.prevValid)) ∧
    (∀ evs, 0 ≤ (build evs).prevValid →
      ((build evs).recs.getD (build evs).prevValid.toNat dfltRec).elig = true ∨
      ((build evs).recs.getD (build evs).prevValid.toNat dfltRec).copen = true) := by
  constructor
  · intro st ev
    rw [buildStep]
    by_cases hfl : (evFlags ev.kind).1 = true ∨ (evFlags ev.kind).2 = true
    · rw [if_pos hfl, if_pos hfl, if_pos hfl]
      exact ⟨rfl, rfl⟩
    · rw [if_neg hfl, if_neg hfl, if_neg hfl]
      exact ⟨rfl, rfl⟩
  · intro evs
    exact (stInv_build evs).2.2.2.2.2.2

theorem c5_prev_state_update_witness :
    ((buildStep initB { off := 0, col := 0, kind := EvKind.normal true, text := ['x'] }).prevInd = 0 ∧
      (buildStep initB { off := 0, col := 0, kind := EvKind.normal true, text := ['x'] }).prevValid = 0) ∧
    (0 ≤ (build (eventsOf "top\n  /* c\n     more */\n    code\n".toList)).prevValid ∧
      (((build (eventsOf "top\n  /* c\n     more */\n    code\n".toList)).recs.getD
          (build (eventsOf "top\n  /* c\n     more */\n    code\n".toList)).prevValid.toNat
          dfltRec).elig = true ∨
        ((build (eventsOf "top\n  /* c\n     more */\n    code\n".toList)).recs.getD
          (build (eventsOf "top\n  /* c\n     more */\n    code\n".toList)).prevValid.toNat
          dfltRec).copen = true)) := by
  constructor
  · have := c5_prev_state_update.1 initB
      { off := 0, col := 0, kind := EvKind.normal true, text := ['x'] }
    simpa using this
  · exact ⟨by decide,
      c5_prev_state_update.2 (eventsOf "top\n  /* c\n     more */\n    code\n".toList) (by decide)⟩

/-! ## Lemmas about the boring skip and the context walk -/

theorem skipBack_le (recs : List LineRec) (indent : Nat) :
    ∀ q, skipBack recs indent q ≤ q := by
  intro q
  induction q with
  | zero => rw [skipBack]
  | succ p ih =>
    rw [skipBack]
    split
    · omega
    · omega

theorem boringLoop_le (recs : List LineRec) (indent : Nat) :
    ∀ fuel p, boringLoop recs indent fuel p ≤ p := by
  intro fuel
  induction fuel with
  | zero => intro p; rw [boringLoop]
  | succ f ih =>
    intro p
    rw [boringLoop]
    split
    · rename_i h
      have h1 := skipBack_le recs indent (p - 1)
      have h2 := ih (skipBack recs indent (p - 1))
      omega
    · omega

theorem resolveBoring_le (recs : List LineRec) (p : Nat) : resolveBoring recs p ≤ p :=
  boringLoop_le recs _ p p

/-- Records past the end read as the default record, whose link is none. -/
theorem outOf_oob (recs : List LineRec) (i : Nat) (h : recs.length ≤ i) :
    outOf recs i = -1 := by
  rw [outOf, List.getD_eq_default _ _ h]
  rfl

/-- Under the parent-link invariant, every index the walk emits strictly
precedes the index it was reached from. -/
theorem walkLoop_lt (recs : List LineRec) (hl : linksOK recs) :
    ∀ fuel cur c, c ∈ walkLoop recs fuel cur → c < cur := by
  intro fuel
  induction fuel with
  | zero => intro cur c hc; rw [walkLoop] at hc; simp at hc
  | succ f ih =>
    intro cur c hc
    rw [walkLoop] at hc
    by_cases h0 : 0 ≤ (recs.getD cur dfltRec).outer
    · rw [if_pos h0] at hc
      have hcur : cur < recs.length := by
        by_contra hge
        have := outOf_oob recs cur (by omega)
        rw [outOf] at this
        omega
      have hlk := hl cur hcur
      rw [outOf] at hlk
      have hb : resolveBoring recs (recs.getD cur dfltRec).outer.toNat < cur := by
        have := resolveBoring_le recs (recs.getD cur dfltRec).outer.toNat
        omega
      rcases List.mem_cons.mp hc with h | h
      · omega
      · have := ih _ c h
        omega
    · rw [if_neg h0] at hc
      simp at hc

/-- The walk does not depend on the fuel once the fuel exceeds the starting
index. -/
theorem walkLoop_fuel (recs : List LineRec) (hl : linksOK recs) :
    ∀ f1 f2 cur, cur < f1 → cur < f2 →
      walkLoop recs f1 cur = walkLoop recs f2 cur := by
  intro f1
  induction f1 with
  | zero => intro f2 cur h1 h2; omega
  | succ f ih =>
    intro f2 cur h1 h2
    match f2, h2 with
    | g + 1, h2 =>
      rw [walkLoop, walkLoop]
      by_cases h0 : 0 ≤ (recs.getD cur dfltRec).outer
      · rw [if_pos h0, if_pos h0]
        have hcur : cur < recs.length := by
          by_contra hge
          have := outOf_oob recs cur (by omega)
          rw [outOf] at this
          omega
        have hlk := hl cur hcur
        rw [outOf] at hlk
        have hb : resolveBoring recs (recs.getD cur dfltRec).outer.toNat < cur := by
          have := resolveBoring_le recs (recs.getD cur dfltRec).outer.toNat
          omega
        rw [ih g _ (by omega) (by omega)]
      · rw [if_neg h0, if_neg h0]

/-- **C2, counterexample.**  On the file `"a\n    b\nc\n    {\n        t\n"`
(line 4 is a boring brace whose own parent differs from the parent of its
boring-skip replacement) the emitted chain for the last line has a single
context, while the chain described by the claim — raw ancestors by links
only, then boring-skip each, then reverse — has two: after a boring skip the
code follows the resolved line's link, not the raw ancestor's. -/
theorem c2_counterexample :
    chainOf (recsOf "a\n    b\nc\n    \x7b\n        t\n".toList) 4 = [2] ∧
    specChainOf (recsOf "a\n    b\nc\n    \x7b\n        t\n".toList) 4 = [2, 2] ∧
    chainOf (recsOf "a\n    b\nc\n    \x7b\n        t\n".toList) 4 ≠
      specChainOf (recsOf "a\n    b\nc\n    \x7b\n        t\n".toList) 4 := by
  refine ⟨by decide, by decide, ?_⟩
  decide

/-- **C2 (amended).**  For a query on a single target line the emitted
context chain is produced by iterating "step to the current line's
`outer_index`, apply the boring skip, emit, and continue from the *resolved*
line", collecting innermost-first and reversing to outermost-first: if the
target's `outer_index` is none the chain is empty, otherwise the chain is the
chain of the resolved parent extended by the resolved parent; the implicit
root is never emitted — every emitted index is an actual line index strictly
preceding the target. -/
theorem c2_chain_walk (file : List Char) (t : Nat) :
    (outOf (recsOf file) t < 0 → chainOf (recsOf file) t = []) ∧
    (0 ≤ outOf (recsOf file) t →
      chainOf (recsOf file) t =
        chainOf (recsOf file) (resolveBoring (recsOf file) (outOf (recsOf file) t).toNat) ++
          [resolveBoring (recsOf file) (outOf (recsOf file) t).toNat]) ∧
    (∀ c ∈ chainOf (recsOf file) t, c < t) := by
  have hl := linksOK_recsOf file
  set recs := recsOf file with hrecs
  refine ⟨?_, ?_, ?_⟩
  · intro h
    rw [chainOf, walkLoop]
    rw [outOf] at h
    rw [if_neg (by omega)]
    rfl
  · intro h
    rw [outOf] at h
    simp only [outOf]
    have ht : t < recs.length := by
      by_contra hge
      have := outOf_oob recs t (by omega)
      rw [outOf] at this
      omega
    have hlk := hl t ht
    rw [outOf] at hlk
    have hb : resolveBoring recs (recs.getD t dfltRec).outer.toNat ≤
        (recs.getD t dfltRec).outer.toNat :=
      resolveBoring_le recs _
    rw [chainOf, chainOf, walkLoop, if_pos h]
    rw [List.reverse_cons]
    have heq : walkLoop recs recs.length
        (resolveBoring recs (recs.getD t dfltRec).outer.toNat) =
        walkLoop recs (recs.length + 1)
          (resolveBoring recs (recs.getD t dfltRec).outer.toNat) := by
      apply walkLoop_fuel recs hl
      · omega
      · omega
    rw [heq]
  · intro c hc
    rw [chainOf, List.mem_reverse] at hc
    exact walkLoop_lt recs hl _ t c hc

/-- **C3, counterexample.**  On the file `"w\n   x\n  {\n    {\n      t\n"`
the ancestor of the last line is the boring line 4 (indentation 4); the coded
skip keeps the threshold 4 on the repeat and lands on line 2 (index 1,
indentation 3), whereas re-reading the threshold from the boring replacement
(indentation 2), as the claim's wording says, would land on line 1 (index 0):
the replacement scan does not use the current boring line's indentation. -/
theorem c3_counterexample :
    outOf (recsOf "w\n   x\n  \x7b\n    \x7b\n      t\n".toList) 4 = 3 ∧
    lineIsBoring ((recsOf "w\n   x\n  \x7b\n    \x7b\n      t\n".toList).getD 3 dfltRec) = true ∧
    resolveBoring (recsOf "w\n   x\n  \x7b\n    \x7b\n      t\n".toList) 3 = 1 ∧
    claimResolveBoring (recsOf "w\n   x\n  \x7b\n    \x7b\n      t\n".toList) 3 = 0 := by
  refine ⟨by decide, by decide, by decide, by decide⟩

theorem nearestLE_skipBack (recs : List LineRec) (indent : Nat) :
    ∀ q, nearestLE recs indent (q + 1) = skipBack recs indent q := by
  intro q
  induction q with
  | zero =>
    rw [nearestLE, skipBack]
    by_cases h : (recs.getD 0 dfltRec).indentation ≤ indent
    · simp only [List.range_succ, List.range_zero, List.nil_append,
        List.reverse_singleton]
      rw [List.find?_cons_of_pos _ (by simpa using h)]
      rfl
    · simp only [List.range_succ, List.range_zero, List.nil_append,
        List.reverse_singleton]
      rw [List.find?_cons_of_neg _ (by simpa using h)]
      rfl
  | succ p ih =>
    rw [nearestLE, skipBack]
    rw [List.range_succ, List.reverse_append, List.reverse_singleton,
      List.singleton_append]
    by_cases h : (recs.getD (p + 1) dfltRec).indentation ≤ indent
    · rw [List.find?_cons_of_pos _ (by simpa using h), if_neg (by omega)]
      rfl
    · rw [List.find?_cons_of_neg _ (by simpa using h), if_pos (by omega)]
      rw [nearestLE] at ih
      exact ih

theorem nearestLE_skipBack_pred (recs : List LineRec) (indent : Nat) (p : Nat)
    (hp : 0 < p) : nearestLE recs indent p = skipBack recs indent (p - 1) := by
  obtain ⟨q, rfl⟩ : ∃ q, p = q + 1 := ⟨p - 1, by omega⟩
  simpa using nearestLE_skipBack recs indent q

theorem boringLoop_eq_fixed (recs : List LineRec) (indent : Nat) :
    ∀ fuel p, boringLoop recs indent fuel p = fixedNearestLoop recs indent fuel p := by
  intro fuel
  induction fuel with
  | zero => intro p; rw [boringLoop, fixedNearestLoop]
  | succ f ih =>
    intro p
    rw [boringLoop, fixedNearestLoop]
    split
    · rename_i h
      rw [nearestLE_skipBack_pred recs indent p h.1]
      exact ih _
    · rfl

/-- **C3 (amended).**  A line is boring exactly when the character at its
`start_offset` is `'{'`; a boring ancestor is replaced by the nearest
strictly earlier line — scanning backward by raw array position, with line 0
as an unconditional backstop — whose indentation is at most the *original*
ancestor's indentation, and the replacement repeats while the result is
boring, the threshold staying fixed at the original ancestor's indentation
throughout. -/
theorem c3_boring_skip (recs : List LineRec) (r : LineRec) (p : Nat) :
    (lineIsBoring r = true ↔ r.text.head? = some (Char.ofNat 123)) ∧
    resolveBoring recs p = fixedResolveBoring recs p := by
  constructor
  · rw [lineIsBoring]
    cases h : r.text.head? with
    | none =>
      simp only [Option.getD_none, beq_iff_eq]
      constructor
      · intro hh
        exact absurd hh (by decide)
      · intro hh
        exact absurd hh (by simp)
    | some c =>
      simp only [Option.getD_some, beq_iff_eq, Option.some.injEq]
  · rw [resolveBoring, fixedResolveBoring]
    exact boringLoop_eq_fixed recs _ p p

/-! ## Elision (claim C4) -/

/-- Within the representable range the `uint32_t` distance test is the plain
one. -/
theorem elide_eq (t c : Nat) (hc : c < t) (ht : t < 2 ^ 32) :
    elide t c = decide (t - c < 20) := by
  rw [elide]
  have h1 : (0 : Int) ≤ (t : Int) - (c : Int) := by omega
  have h2 : (t : Int) - (c : Int) < 2 ^ 32 := by omega
  rw [Int.emod_eq_of_lt h1 h2]
  simp only [decide_eq_decide]
  omega

/-- The emitted characters of the printing loop: exactly the non-elided
contexts, in order. -/
theorem emitLoop_out (recs : List LineRec) (t : Nat) :
    ∀ cs sk, (emitLoop recs t cs sk).1 =
      ((cs.filter (fun c => !elide t c)).map
        (fun c => printContext c ((recs.getD c dfltRec).text))).flatten := by
  intro cs
  induction cs with
  | nil => intro sk; rw [emitLoop]; simp
  | cons c cs ih =>
    intro sk
    rw [emitLoop]
    by_cases h : elide t c = true
    · rw [if_pos h]
      rw [ih true]
      rw [List.filter_cons]
      simp [h]
    · rw [if_neg h]
      simp only [List.filter_cons]
      have hb : (!elide t c) = true := by simp [h]
      rw [if_pos hb, List.map_cons, List.flatten_cons]
      rw [ih false]

/-- The `skipped_previous` flag surviving the loop is the elision status of
the last context processed. -/
theorem emitLoop_flag_append (recs : List LineRec) (t : Nat) (cs : List Nat)
    (b : Nat) (sk : Bool) :
    (emitLoop recs t (cs ++ [b]) sk).2 = elide t b := by
  induction cs generalizing sk with
  | nil =>
    cases hb : elide t b with
    | true => simp [emitLoop, hb]
    | false => simp [emitLoop, hb]
  | cons c cs ih =>
    rw [List.cons_append, emitLoop]
    by_cases h : elide t c = true
    · rw [if_pos h]
      exact ih true
    · rw [if_neg h]
      exact ih false

theorem emitLoop_flag_nil (recs : List LineRec) (t : Nat) :
    (emitLoop recs t [] false).2 = false := by
  rw [emitLoop]

/-- **C4.**  For a query on a target line `t` (necessarily below `2^32`, as
`query_line` is a `uint32_t`): a context of the chain is printed exactly when
its line index is at least 20 lines before the target (elided exactly when
within 20 lines), and the single trailing ellipsis marker is produced exactly
when at least one context of the chain was elided. -/
theorem c4_elision (file : List Char) (t : Nat) (ht : t < 2 ^ 32) :
    ((emitLoop (recsOf file) t (chainOf (recsOf file) t) false).1 =
      (((chainOf (recsOf file) t).filter (fun c => decide (20 ≤ t - c))).map
        (fun c => printContext c (((recsOf file).getD c dfltRec).text))).flatten) ∧
    ((emitLoop (recsOf file) t (chainOf (recsOf file) t) false).2 = true ↔
      ∃ c ∈ chainOf (recsOf file) t, t - c < 20) := by
  have hl := linksOK_recsOf file
  set recs := recsOf file with hrecs
  have hmem : ∀ c ∈ chainOf recs t, c < t := by
    intro c hc
    rw [chainOf, List.mem_reverse] at hc
    exact walkLoop_lt recs hl _ t c hc
  constructor
  · rw [emitLoop_out]
    have hfilter : (chainOf recs t).filter (fun c => !elide t c) =
        (chainOf recs t).filter (fun c => decide (20 ≤ t - c)) := by
      apply List.filter_congr
      intro c hc
      rw [elide_eq t c (hmem c hc) ht, ← decide_not]
      simp only [decide_eq_decide]
      omega
    rw [hfilter]
  · by_cases h0 : 0 ≤ (recs.getD t dfltRec).outer
    · have hw : chainOf recs t =
          (walkLoop recs recs.length
            (resolveBoring recs (recs.getD t dfltRec).outer.toNat)).reverse ++
          [resolveBoring recs (recs.getD t dfltRec).outer.toNat] := by
        rw [chainOf, walkLoop, if_pos h0, List.reverse_cons]
      rw [hw, emitLoop_flag_append]
      have hbt : resolveBoring recs (recs.getD t dfltRec).outer.toNat < t := by
        apply hmem
        rw [hw]
        simp
      rw [elide_eq t _ hbt ht]
      simp only [decide_eq_true_eq]
      constructor
      · intro hlt
        exact ⟨resolveBoring recs (recs.getD t dfltRec).outer.toNat, by simp, hlt⟩
      · rintro ⟨c, hcmem, hc⟩
        -- every chain element is at most the innermost resolved context
        rw [List.mem_append] at hcmem
        have hcb : c ≤ resolveBoring recs (recs.getD t dfltRec).outer.toNat := by
          rcases hcmem with h | h
          · rw [List.mem_reverse] at h
            have := walkLoop_lt recs hl _ _ c h
            omega
          · rw [List.mem_singleton] at h
            omega
        omega
    · have hw : chainOf recs t = [] := by
        rw [chainOf, walkLoop, if_neg h0]
        rfl
      rw [hw, emitLoop_flag_nil]
      constructor
      · intro h
        exact absurd h (by simp)
      · rintro ⟨c, hc, _⟩
        exact absurd hc (by simp)

theorem c4_elision_witness :
    2 < 2 ^ 32 ∧
    (((emitLoop (recsOf "void f() \x7b\n    if (x) \x7b\n        do_work();\n    \x7d\n\x7d\n".toList) 2
        (chainOf (recsOf "void f() \x7b\n    if (x) \x7b\n        do_work();\n    \x7d\n\x7d\n".toList) 2) false).1 =
      (((chainOf (recsOf "void f() \x7b\n    if (x) \x7b\n        do_work();\n    \x7d\n\x7d\n".toList) 2).filter
          (fun c => decide (20 ≤ 2 - c))).map
        (fun c => printContext c
          (((recsOf "void f() \x7b\n    if (x) \x7b\n        do_work();\n    \x7d\n\x7d\n".toList).getD c dfltRec).text))).flatten) ∧
    ((emitLoop (recsOf "void f() \x7b\n    if (x) \x7b\n        do_work();\n    \x7d\n\x7d\n".toList) 2
        (chainOf (recsOf "void f() \x7b\n    if (x) \x7b\n        do_work();\n    \x7d\n\x7d\n".toList) 2) false).2 = true ↔
      ∃ c ∈ chainOf (recsOf "void f() \x7b\n    if (x) \x7b\n        do_work();\n    \x7d\n\x7d\n".toList) 2, 2 - c < 20)) :=
  ⟨by decide,
   c4_elision "void f() \x7b\n    if (x) \x7b\n        do_work();\n    \x7d\n\x7d\n".toList 2 (by decide)⟩

/-! ## Control-flow classification and the length cap (claim C6) -/

/-- **C6, counterexample.**  The classifier runs on the stored text *before*
`"namespace "` stripping: `"namespace if x"` strips to a text beginning with
`"if "`, yet the formatter classifies it as not control flow.  Moreover, the
cap check runs only after emitting, and a collapsed space is emitted together
with the following character, so a control-flow rendering can reach 21
characters, exceeding the claimed 20-character cap. -/
theorem c6_counterexample :
    (specCtrlB (stripNamespaces "namespace if x".toList) = true ∧
      isCtrl "namespace if x".toList = false) ∧
    (isCtrl "if ab c d e f g h i j".toList = true ∧
      (renderLabel "if ab c d e f g h i j".toList).length = 21) := by
  refine ⟨⟨by decide, by decide⟩, by decide, by decide⟩

/-- Each loop iteration of `print_context` emits at most two characters, and
the control-flow cap stops the loop once at least 20 have been emitted, so a
control rendering never exceeds 21 characters. -/
theorem pcRun_ctrl_len : ∀ (t : List Char) (s : PCState), s.nChars < 20 →
    s.nChars + (pcRun true s t).length ≤ 21 := by
  intro t
  induction t with
  | nil =>
    intro s hs
    rw [pcRun]
    simp
    omega
  | cons ch rest ih =>
    intro s hs
    rw [pcRun]
    by_cases h1 : (ch == nulC) = true
    · rw [if_pos h1]
      simp
      omega
    · rw [if_neg h1]
      by_cases h2 : isspaceC ch = true
      · rw [if_pos h2]
        exact ih { s with identLen := 0, prevWasSpace := true } hs
      · rw [if_neg h2]
        by_cases h3 : (ch == '/' && rest.head?.getD nulC == '/') = true
        · rw [if_pos h3]
          simp
          omega
        · rw [if_neg h3]
          by_cases h4 : isIdentC ch = true
          · rw [if_pos h4]
            simp only []
            by_cases h5 : (!s.couldFn && s.identLen == 6) = true
            · rw [if_pos h5]
              by_cases hsp : (s.prevWasSpace && isalnumC s.beforeSpace) = true
              · rw [if_pos hsp]
                by_cases hcap : 20 ≤ s.nChars + 2
                · rw [if_pos (by simp only [Bool.true_and, decide_eq_true_eq]; exact hcap)]
                  simp
                  omega
                · rw [if_neg (by simp only [Bool.true_and, decide_eq_true_eq]; exact hcap)]
                  have hih := ih (⟨s.couldFn, s.identLen + 1, dollarC, false,
                    s.nChars + [' '].length + 1⟩ : PCState)
                    (show s.nChars + 1 + 1 < 20 by omega)
                  simp at hih ⊢
                  omega
              · rw [if_neg hsp]
                by_cases hcap : 20 ≤ s.nChars + 1
                · rw [if_pos (by simp only [Bool.true_and, decide_eq_true_eq]; exact hcap)]
                  simp
                  omega
                · rw [if_neg (by simp only [Bool.true_and, decide_eq_true_eq]; exact hcap)]
                  have hih := ih (⟨s.couldFn, s.identLen + 1, dollarC, false,
                    s.nChars + List.length ([] : List Char) + 1⟩ : PCState)
                    (show s.nChars + 0 + 1 < 20 by omega)
                  simp at hih ⊢
                  omega
            · rw [if_neg h5]
              by_cases h6 : (s.couldFn || decide (s.identLen < 6)) = true
              · rw [if_pos h6]
                by_cases hsp : (s.prevWasSpace && isalnumC s.beforeSpace) = true
                · rw [if_pos hsp]
                  by_cases hcap : 20 ≤ s.nChars + 2
                  · rw [if_pos (by simp only [Bool.true_and, decide_eq_true_eq]; exact hcap)]
                    simp
                    omega
                  · rw [if_neg (by simp only [Bool.true_and, decide_eq_true_eq]; exact hcap)]
                    have hih := ih (⟨s.couldFn, s.identLen + 1, ch, false,
                      s.nChars + [' '].length + 1⟩ : PCState)
                      (show s.nChars + 1 + 1 < 20 by omega)
                    simp at hih ⊢
                    omega
                · rw [if_neg hsp]
                  by_cases hcap : 20 ≤ s.nChars + 1
                  · rw [if_pos (by simp only [Bool.true_and, decide_eq_true_eq]; exact hcap)]
                    simp
                    omega
                  · rw [if_neg (by simp only [Bool.true_and, decide_eq_true_eq]; exact hcap)]
                    have hih := ih (⟨s.couldFn, s.identLen + 1, ch, false,
                      s.nChars + List.length ([] : List Char) + 1⟩ : PCState)
                      (show s.nChars + 0 + 1 < 20 by omega)
                    simp at hih ⊢
                    omega
              · rw [if_neg h6]
                by_cases hsp : (s.prevWasSpace && isalnumC s.beforeSpace) = true
                · rw [if_pos hsp]
                  by_cases hcap : 20 ≤ s.nChars + 1
                  · rw [if_pos (by simp only [Bool.true_and, decide_eq_true_eq]; exact hcap)]
                    simp
                    omega
                  · rw [if_neg (by simp only [Bool.true_and, decide_eq_true_eq]; exact hcap)]
                    have hih := ih (⟨s.couldFn, s.identLen + 1, dollarC, false,
                      s.nChars + [' '].length⟩ : PCState)
                      (show s.nChars + 1 < 20 by omega)
                    simp at hih ⊢
                    omega
                · rw [if_neg hsp]
                  by_cases hcap : 20 ≤ s.nChars
                  · rw [if_pos (by simp only [Bool.true_and, decide_eq_true_eq]; exact hcap)]
                    simp
                    omega
                  · rw [if_neg (by simp only [Bool.true_and, decide_eq_true_eq]; exact hcap)]
                    have hih := ih (⟨s.couldFn, s.identLen + 1, dollarC, false,
                      s.nChars + List.length ([] : List Char)⟩ : PCState)
                      (show s.nChars + 0 < 20 by omega)
                    simp at hih ⊢
                    omega
          · rw [if_neg h4]
            by_cases h7 : (ch == '(' && s.couldFn) = true
            · rw [if_pos h7]
              simp
              omega
            · rw [if_neg h7]
              simp only []
              by_cases hcap : 20 ≤ s.nChars + 1
              · rw [if_pos (by simp only [Bool.true_and, decide_eq_true_eq]; exact hcap)]
                simp
                omega
              · rw [if_neg (by simp only [Bool.true_and, decide_eq_true_eq]; exact hcap)]
                have hih := ih (⟨s.couldFn, 0, ch, false, s.nChars + 1⟩ : PCState)
                  (show s.nChars + 1 < 20 by omega)
                simp at hih ⊢
                omega

/-- **C6 (amended).**  The formatter classifies a context line as control
flow exactly when its stored text *before* namespace stripping begins with
one of `"if "`, `"do "`, `"for "`, `"case "`, `"while "`, `"switch "`; for
every control-flow context the rendered label after the `"..N: "` prefix has
at most 21 output characters (the check runs after emitting, so the
20-character target can be overshot by one), while non-control-flow labels
have no length cap. -/
theorem c6_control_classification :
    (∀ t : List Char, isCtrl t = specCtrlB t) ∧
    (∀ t : List Char, isCtrl t = true → (renderLabel t).length ≤ 21) := by
  constructor
  · intro t
    rw [isCtrl, specCtrlB, ctrlKwList]
    simp only [List.map_cons, List.map_nil, List.any_cons, List.any_nil,
      Bool.or_false, Bool.or_assoc]
  · intro t hc
    rw [renderLabel]
    have := pcRun_ctrl_len (stripNamespaces t) (initPC (isCtrl t)) (by simp [initPC])
    rw [hc] at this
    rw [hc]
    rw [initPC] at this ⊢
    omega

theorem c6_control_classification_witness :
    isCtrl "if x".toList = true ∧
    (renderLabel "if x".toList).length ≤ 21 :=
  ⟨by decide, c6_control_classification.2 "if x".toList (by decide)⟩

theorem c2_chain_walk_witness :
    0 ≤ outOf (recsOf "a\n    b\nc\n    \x7b\n        t\n".toList) 4 ∧
    chainOf (recsOf "a\n    b\nc\n    \x7b\n        t\n".toList) 4 =
      chainOf (recsOf "a\n    b\nc\n    \x7b\n        t\n".toList)
          (resolveBoring (recsOf "a\n    b\nc\n    \x7b\n        t\n".toList)
            (outOf (recsOf "a\n    b\nc\n    \x7b\n        t\n".toList) 4).toNat) ++
        [resolveBoring (recsOf "a\n    b\nc\n    \x7b\n        t\n".toList)
          (outOf (recsOf "a\n    b\nc\n    \x7b\n        t\n".toList) 4).toNat] :=
  ⟨by decide, (c2_chain_walk "a\n    b\nc\n    \x7b\n        t\n".toList 4).2.1 (by decide)⟩

/-! ## Identifier truncation (claim C7) -/

/-- An identifier character is not NUL, not whitespace, and not a slash. -/
theorem identC_facts (c : Char) (h : isIdentC c = true) :
    (c == nulC) = false ∧ isspaceC c = false ∧ (c == '/') = false := by
  refine ⟨?_, ?_, ?_⟩
  · cases hcc : (c == nulC) with
    | false => rfl
    | true =>
      have he := eq_of_beq hcc
      subst he
      exact absurd h (by decide)
  · rw [isspaceC]
    cases h1 : (c == ' ') with
    | true =>
      have he := eq_of_beq h1
      subst he
      exact absurd h (by decide)
    | false =>
      cases h2 : (c == '\t') with
      | true =>
        have he := eq_of_beq h2
        subst he
        exact absurd h (by decide)
      | false =>
        cases h3 : (c == '\n') with
        | true =>
          have he := eq_of_beq h3
          subst he
          exact absurd h (by decide)
        | false =>
          cases h4 : (c == vtC) with
          | true =>
            have he := eq_of_beq h4
            subst he
            exact absurd h (by decide)
          | false =>
            cases h5 : (c == ffC) with
            | true =>
              have he := eq_of_beq h5
              subst he
              exact absurd h (by decide)
            | false =>
              cases h6 : (c == '\r') with
              | true =>
                have he := eq_of_beq h6
                subst he
                exact absurd h (by decide)
              | false => rfl
  · cases hcc : (c == '/') with
    | false => rfl
    | true =>
      have he := eq_of_beq hcc
      subst he
      exact absurd h (by decide)

/-- Once the identifier run is longer than six characters (the `'$'` already
emitted), the remaining characters of the run produce no output at all: only
the run-length counter advances. -/
theorem pcRun_suppressed : ∀ (run rest : List Char) (s : PCState),
    s.couldFn = false → s.prevWasSpace = false → s.beforeSpace = dollarC →
    6 < s.identLen → ¬20 ≤ s.nChars → (∀ c ∈ run, isIdentC c = true) →
    pcRun true s (run ++ rest) =
      pcRun true ⟨false, s.identLen + run.length, dollarC, false, s.nChars⟩ rest := by
  intro run
  induction run with
  | nil =>
    intro rest s h1 h2 h3 h4 h5 h6
    obtain ⟨cf, il, bs, pw, nc⟩ := s
    simp only at h1 h2 h3
    subst h1
    subst h2
    subst h3
    simp
  | cons c run ih =>
    intro rest s h1 h2 h3 h4 h5 h6
    have hc := h6 c (List.mem_cons_self c run)
    have hf := identC_facts c hc
    rw [List.cons_append, pcRun, if_neg (by rw [hf.1]; simp),
      if_neg (by rw [hf.2.1]; simp), if_neg (by rw [hf.2.2]; simp), if_pos hc]
    simp only []
    rw [if_neg (by rw [h1]; simp; omega)]
    rw [if_neg (by rw [h1]; simp; omega)]
    rw [if_neg (by rw [h2]; simp)]
    rw [if_neg (by simp; omega)]
    rw [List.nil_append]
    have hrec := ih rest ⟨s.couldFn, s.identLen + 1, dollarC, false,
      s.nChars + List.length ([] : List Char)⟩ (by simpa using h1) rfl rfl
      (by simp; omega) (by simpa using h5) (fun d hd => h6 d (List.mem_cons_of_mem c hd))
    rw [hrec]
    congr 1
    simp only [List.length_cons, List.length_nil]
    simp
    omega

/-- A function-name-candidate rendering introduces no `'$'` marker: every
identifier is copied in full. -/
theorem pcRun_no_dollar : ∀ (t : List Char) (ctrl : Bool) (s : PCState),
    s.couldFn = true → dollarC ∉ t → dollarC ∉ pcRun ctrl s t := by
  intro t
  induction t with
  | nil =>
    intro ctrl s h1 h2
    rw [pcRun]
    simp
  | cons ch rest ih =>
    intro ctrl s h1 h2
    have hch : ¬dollarC = ch := by
      intro h
      exact h2 (by rw [h]; exact List.mem_cons_self ch rest)
    have hrest : dollarC ∉ rest := fun h => h2 (List.mem_cons_of_mem ch h)
    rw [pcRun]
    by_cases b1 : (ch == nulC) = true
    · rw [if_pos b1]
      simp
    · rw [if_neg b1]
      by_cases b2 : isspaceC ch = true
      · rw [if_pos b2]
        exact ih ctrl { s with identLen := 0, prevWasSpace := true } h1 hrest
      · rw [if_neg b2]
        by_cases b3 : (ch == '/' && rest.head?.getD nulC == '/') = true
        · rw [if_pos b3]
          simp
        · rw [if_neg b3]
          by_cases b4 : isIdentC ch = true
          · rw [if_pos b4]
            simp only []
            rw [if_neg (by rw [h1]; simp)]
            rw [if_pos (by rw [h1]; simp)]
            intro hmem
            rw [List.mem_append] at hmem
            rcases hmem with hm | hm
            · by_cases hsp : (s.prevWasSpace && isalnumC s.beforeSpace) = true
              · rw [if_pos hsp] at hm
                rw [List.mem_singleton] at hm
                exact absurd hm (by decide)
              · rw [if_neg hsp] at hm
                simp at hm
            · rw [List.mem_cons] at hm
              rcases hm with hm | hm
              · exact hch hm
              · by_cases hcap : (ctrl && decide (20 ≤ s.nChars +
                    (if (s.prevWasSpace && isalnumC s.beforeSpace) = true
                      then [' '] else []).length + 1)) = true
                · rw [if_pos hcap] at hm
                  simp at hm
                · rw [if_neg hcap] at hm
                  exact ih ctrl _ (by rw [← h1]) hrest hm
          · rw [if_neg b4]
            by_cases b5 : (ch == '(' && s.couldFn) = true
            · rw [if_pos b5]
              rw [List.mem_singleton]
              exact hch
            · rw [if_neg b5]
              intro hmem
              rw [List.mem_cons] at hmem
              rcases hmem with hm | hm
              · exact hch hm
              · by_cases hcap : (ctrl && decide (20 ≤ s.nChars + 1)) = true
                · rw [if_pos hcap] at hm
                  simp at hm
                · rw [if_neg hcap] at hm
                  exact ih ctrl _ (by rw [← h1]) hrest hm

/-- Behaviour of `print_context` on an identifier run while the line is not a
function-name candidate: with an emission budget that reaches the seventh
character, the first six characters of the run are emitted, the seventh is
replaced by a single `'$'`, and no further characters of the run are emitted;
rendering then either stops at the cap or continues after the run with the
run length recorded. -/
theorem pcRun_ident_run : ∀ (run rest : List Char) (s : PCState),
    s.couldFn = false → s.prevWasSpace = false →
    (∀ c ∈ run, isIdentC c = true) →
    s.identLen ≤ 6 → s.nChars + (6 - s.identLen) < 20 →
    7 ≤ s.identLen + run.length →
    pcRun true s (run ++ rest) =
      run.take (6 - s.identLen) ++ dollarC ::
        (if 20 ≤ s.nChars + (6 - s.identLen) + 1 then [] else
          pcRun true ⟨false, s.identLen + run.length, dollarC, false,
            s.nChars + (6 - s.identLen) + 1⟩ rest) := by
  intro run
  induction run with
  | nil =>
    intro rest s h1 h2 h3 h4 h5 h6
    simp at h6
    omega
  | cons c run ih =>
    intro rest s h1 h2 h3 h4 h5 h6
    have hc := h3 c (List.mem_cons_self c run)
    have hf := identC_facts c hc
    rw [List.cons_append, pcRun, if_neg (by rw [hf.1]; simp),
      if_neg (by rw [hf.2.1]; simp), if_neg (by rw [hf.2.2]; simp), if_pos hc]
    simp only []
    by_cases hil : s.identLen = 6
    · rw [if_pos (by rw [h1, hil]; simp)]
      rw [if_neg (by rw [h2]; simp)]
      rw [hil]
      simp only [Nat.sub_self, List.take_zero, List.nil_append, List.length_nil,
        Nat.add_zero]
      by_cases hcap : 20 ≤ s.nChars + 1
      · rw [if_pos (by simp only [Bool.true_and, decide_eq_true_eq]; exact hcap)]
        rw [if_pos hcap]
      · rw [if_neg (by simp only [Bool.true_and, decide_eq_true_eq]; exact hcap)]
        rw [if_neg hcap]
        have hrec := pcRun_suppressed run rest
          ⟨s.couldFn, s.identLen + 1, dollarC, false, s.nChars + 1⟩
          (by simpa using h1) rfl rfl (by simp [hil]) (by simpa using hcap)
          (fun d hd => h3 d (List.mem_cons_of_mem c hd))
        simp only [hil] at hrec
        rw [hrec]
        have hstate : (⟨false, 6 + 1 + run.length, dollarC, false,
            s.nChars + 1⟩ : PCState) =
            ⟨false, 6 + (c :: run).length, dollarC, false, s.nChars + 1⟩ := by
          simp only [PCState.mk.injEq, List.length_cons]
          exact ⟨trivial, by omega, trivial, trivial, trivial⟩
        rw [hstate]
    · have hlt : s.identLen < 6 := by omega
      rw [if_neg (by rw [h1]; simp; omega)]
      rw [if_pos (by rw [h1]; simp; omega)]
      rw [if_neg (by rw [h2]; simp)]
      rw [if_neg (by simp; omega)]
      rw [List.nil_append]
      simp only [List.length_nil, Nat.add_zero]
      have hrec := ih rest
        ⟨s.couldFn, s.identLen + 1, c, false, s.nChars + 1⟩
        (by simpa using h1) rfl
        (fun d hd => h3 d (List.mem_cons_of_mem c hd))
        (by simp; omega) (by simp; omega) (by simp at h6 ⊢; omega)
      simp only [List.length_nil, Nat.add_zero] at hrec
      rw [hrec]
      have htk : 6 - s.identLen = (6 - (s.identLen + 1)) + 1 := by omega
      rw [htk, List.take_succ_cons, List.cons_append]
      have hcond : (20 ≤ s.nChars + 1 + (6 - (s.identLen + 1)) + 1) ↔
          (20 ≤ s.nChars + ((6 - (s.identLen + 1)) + 1) + 1) := by omega
      have hstate : (⟨false, s.identLen + 1 + run.length, dollarC, false,
          s.nChars + 1 + (6 - (s.identLen + 1)) + 1⟩ : PCState) =
          ⟨false, s.identLen + (c :: run).length, dollarC, false,
            s.nChars + ((6 - (s.identLen + 1)) + 1) + 1⟩ := by
        simp only [PCState.mk.injEq, List.length_cons]
        exact ⟨trivial, by omega, trivial, trivial, by omega⟩
      rw [if_congr hcond rfl (by rw [hstate])]

/-- **C7, counterexample.**  On the control-flow line
`"if abcd efghi jklmnopqrs"` the identifier run `jklmnopqrs` (ten
characters) reaches six characters exactly when the 20-character cap is
reached, so rendering stops: the remainder of the run is dropped without any
`'$'` marker ever being emitted, contradicting the claim that once a run
reaches six characters its remainder is replaced by a single `'$'`. -/
theorem c7_counterexample :
    isCtrl "if abcd efghi jklmnopqrs".toList = true ∧
    (∀ c ∈ "jklmnopqrs".toList, isIdentC c = true) ∧
    renderLabel "if abcd efghi jklmnopqrs".toList = "if abcd efghi jklmno".toList ∧
    (renderLabel "if abcd efghi jklmnopqrs".toList).count dollarC = 0 := by
  refine ⟨by decide, by decide, by decide, by decide⟩

/-- **C7 (amended).**  When the formatter renders a line that is not treated
as a function-name candidate, an identifier run whose seventh character is
reached within the control-flow cap budget renders as its first six
characters followed by a single `'$'` and nothing else of the run (rendering
then stops at the cap or continues after the run); if the cap terminates
rendering before the seventh character, the remainder of the run is dropped
with no `'$'` at all.  A function-name-candidate rendering copies its
identifiers in full: it never introduces a `'$'` marker. -/
theorem c7_identifier_truncation :
    (∀ (run rest : List Char) (s : PCState),
      s.couldFn = false → s.prevWasSpace = false →
      (∀ c ∈ run, isIdentC c = true) →
      s.identLen ≤ 6 → s.nChars + (6 - s.identLen) < 20 →
      7 ≤ s.identLen + run.length →
      pcRun true s (run ++ rest) =
        run.take (6 - s.identLen) ++ dollarC ::
          (if 20 ≤ s.nChars + (6 - s.identLen) + 1 then [] else
            pcRun true ⟨false, s.identLen + run.length, dollarC, false,
              s.nChars + (6 - s.identLen) + 1⟩ rest)) ∧
    (∀ (t : List Char) (ctrl : Bool) (s : PCState),
      s.couldFn = true → dollarC ∉ t → dollarC ∉ pcRun ctrl s t) :=
  ⟨pcRun_ident_run, pcRun_no_dollar⟩

theorem c7_identifier_truncation_witness :
    ((initPC true).couldFn = false ∧ (initPC true).prevWasSpace = false ∧
      (∀ c ∈ "abcdefghij".toList, isIdentC c = true) ∧
      (initPC true).identLen ≤ 6 ∧
      (initPC true).nChars + (6 - (initPC true).identLen) < 20 ∧
      7 ≤ (initPC true).identLen + "abcdefghij".toList.length ∧
      pcRun true (initPC true) ("abcdefghij".toList ++ []) =
        "abcdefghij".toList.take (6 - (initPC true).identLen) ++ dollarC ::
          (if 20 ≤ (initPC true).nChars + (6 - (initPC true).identLen) + 1 then []
           else
            pcRun true ⟨false, (initPC true).identLen + "abcdefghij".toList.length,
              dollarC, false,
              (initPC true).nChars + (6 - (initPC true).identLen) + 1⟩ [])) ∧
    ((initPC false).couldFn = true ∧ dollarC ∉ "foo(x)".toList ∧
      dollarC ∉ pcRun false (initPC false) "foo(x)".toList) :=
  ⟨⟨by decide, by decide, by decide, by decide, by decide, by decide,
    c7_identifier_truncation.1 "abcdefghij".toList [] (initPC true)
      (by decide) (by decide) (by decide) (by decide) (by decide) (by decide)⟩,
   ⟨by decide, by decide,
    c7_identifier_truncation.2 "foo(x)".toList false (initPC false)
      (by decide) (by decide)⟩⟩

/-! ## Command-line argument parsing (claim C8) -/

/-- With no NUL among the argument's characters, the character `strtoul`'s
end pointer rests on is the terminating NUL exactly when the end index is the
string's length. -/
theorem getD_nul_iff (s : List Char) (hnul : nulC ∉ s) (i : Nat) :
    (s.getD i nulC == nulC) = true ↔ s.length ≤ i := by
  by_cases h : i < s.length
  · rw [List.getD_eq_getElem _ _ h]
    constructor
    · intro hb
      have he := eq_of_beq hb
      have hm : s[i] ∈ s := List.getElem_mem h
      rw [he] at hm
      exact absurd hm hnul
    · intro hle
      omega
  · rw [List.getD_eq_default _ _ (by omega)]
    simp only [beq_self_eq_true, true_iff]
    omega

theorem wsLen_le (s : List Char) : wsLen s ≤ s.length := by
  rw [wsLen]
  have h := congrArg List.length (List.takeWhile_append_dropWhile isspaceC s)
  rw [List.length_append] at h
  omega

theorem signLen_le (s : List Char) : signLen s ≤ (afterWs s).length := by
  rw [signLen]
  by_cases h : hasSign s = true
  · rw [if_pos h]
    rw [hasSign] at h
    cases hw : afterWs s with
    | nil =>
      rw [hw] at h
      simp only [List.head?_nil, Option.getD_none] at h
      rw [Bool.or_eq_true] at h
      rcases h with h | h <;> exact absurd (eq_of_beq h) (by decide)
    | cons c rest => simp
  · rw [if_neg h]
    omega

/-- The four parts of the argument partition its length. -/
theorem parts_sum (s : List Char) :
    wsLen s + signLen s + (digitsPart s).length + (afterDigits s).length = s.length := by
  have h1 : (afterWs s).length = s.length - wsLen s := by
    rw [afterWs, List.length_drop]
  have h2 : (((afterWs s).drop (signLen s))).length = (afterWs s).length - signLen s := by
    rw [List.length_drop]
  have h3 : (digitsPart s).length + (afterDigits s).length =
      (((afterWs s).drop (signLen s))).length := by
    rw [digitsPart, afterDigits]
    have h := congrArg List.length
      (List.takeWhile_append_dropWhile Char.isDigit ((afterWs s).drop (signLen s)))
    rw [List.length_append] at h
    omega
  have h4 := wsLen_le s
  have h5 := signLen_le s
  omega

theorem strtoul10_endIdx_zero (s : List Char) (hnd : (digitsPart s).length = 0) :
    (strtoul10 s).endIdx = 0 := by
  rw [strtoul10, if_pos hnd]

theorem strtoul10_endIdx_pos (s : List Char) (hnd : ¬(digitsPart s).length = 0) :
    (strtoul10 s).endIdx = wsLen s + signLen s + (digitsPart s).length := by
  rw [strtoul10, if_neg hnd]

/-- **C8, counterexample.**  The empty string (and equally `" 7"`, `"+7"`,
`"-5"`) is not a non-negative decimal integer, yet `strtoul` leaves no
trailing characters on it, so the program reports no usage error; the empty
string parses to 0 and selects the all-lines mode. -/
theorem c8_counterexample :
    (isNonNegDecimalB "".toList = false ∧ usageErr "".toList = false ∧
      queryLineOf "".toList = 0) ∧
    (isNonNegDecimalB " 7".toList = false ∧ usageErr " 7".toList = false ∧
      queryLineOf " 7".toList = 7) ∧
    (isNonNegDecimalB "-5".toList = false ∧ usageErr "-5".toList = false) := by
  refine ⟨⟨by decide, by decide, by decide⟩, ⟨by decide, by decide, by decide⟩,
    by decide, by decide⟩

/-- **C8 (amended).**  The second positional argument is parsed by
`strtoul(.., 10)`: a usage error is reported exactly when something other
than optional leading whitespace, an optional single sign, and a maximal
nonempty digit run would remain unconsumed (in particular the empty string,
whitespace- or sign-prefixed numbers and negative numbers are accepted, the
latter wrapping in unsigned arithmetic).  The resulting `uint32_t` value 0
selects the all-lines summary over all `n_lines` lines, and a positive value
`L` selects exactly the single 1-based line `L`. -/
theorem c8_argument_parsing :
    (∀ s : List Char, nulC ∉ s → (usageErr s = true ↔ acceptedArgB s = false)) ∧
    (∀ n : Nat, queryRange 0 n = (0, n)) ∧
    (∀ q n : Nat, q ≠ 0 → queryRange q n = (q - 1, q)) := by
  refine ⟨?_, ?_, ?_⟩
  · intro s hnul
    by_cases hnd : (digitsPart s).length = 0
    · rw [usageErr, strtoul10_endIdx_zero s hnd, acceptedArgB]
      constructor
      · intro herr
        have hne : s ≠ [] := by
          intro he
          subst he
          revert herr
          decide
        have h1 : s.isEmpty = false := by
          cases s with
          | nil => exact absurd rfl hne
          | cons c r => rfl
        rw [h1]
        have h2 : (digitsPart s).isEmpty = true := by
          cases hdp : digitsPart s with
          | nil => rfl
          | cons c r => rw [hdp] at hnd; simp at hnd
        rw [h2]
        rfl
      · intro hacc
        have hne : s ≠ [] := by
          intro he
          subst he
          revert hacc
          decide
        have hlen : 0 < s.length := by
          cases s with
          | nil => exact absurd rfl hne
          | cons c r => simp
        rw [Bool.not_eq_true']
        rw [Bool.eq_false_iff]
        intro hbt
        have := (getD_nul_iff s hnul 0).mp hbt
        omega
    · rw [usageErr, strtoul10_endIdx_pos s hnd, acceptedArgB]
      have hsum := parts_sum s
      have hlen : 0 < s.length := by omega
      have h1 : s.isEmpty = false := by
        cases s with
        | nil => simp at hlen
        | cons c r => rfl
      rw [h1]
      have h2 : (!(digitsPart s).isEmpty) = true := by
        cases hdp : digitsPart s with
        | nil => rw [hdp] at hnd; simp at hnd
        | cons c r => rfl
      rw [h2]
      simp only [Bool.false_or, Bool.true_and]
      constructor
      · intro herr
        rw [Bool.not_eq_true'] at herr
        have hlt : ¬s.length ≤ wsLen s + signLen s + (digitsPart s).length := by
          intro hle
          have := (getD_nul_iff s hnul _).mpr hle
          rw [this] at herr
          cases herr
        cases had : afterDigits s with
        | nil =>
          exfalso
          apply hlt
          rw [had] at hsum
          simp at hsum
          omega
        | cons c r => rfl
      · intro hempty
        have h3 : 0 < (afterDigits s).length := by
          cases had : afterDigits s with
          | nil => rw [had] at hempty; cases hempty
          | cons c r => simp
        have hlt : ¬s.length ≤ wsLen s + signLen s + (digitsPart s).length := by omega
        rw [Bool.not_eq_true']
        rw [Bool.eq_false_iff]
        intro hbt
        exact hlt ((getD_nul_iff s hnul _).mp hbt)
  · intro n
    rw [queryRange]
    simp
  · intro q n hq
    rw [queryRange, if_pos hq]

theorem c8_argument_parsing_witness :
    (nulC ∉ "12x".toList ∧
      (usageErr "12x".toList = true ↔ acceptedArgB "12x".toList = false)) ∧
    queryRange 0 7 = (0, 7) ∧ (5 ≠ 0 ∧ queryRange 5 7 = (4, 5)) :=
  ⟨⟨by decide, c8_argument_parsing.1 "12x".toList (by decide)⟩,
   c8_argument_parsing.2.1 7,
   ⟨by decide, c8_argument_parsing.2.2 5 7 (by decide)⟩⟩

/-! ### Claim C9: NUL truncation and the line count

Scanning a buffer of the form `a ++ nulC :: junk` never looks past the NUL:
every helper of the scanner either stops at the NUL or consumes at most the
`a` part.  The `_stop` lemmas below make this precise for each helper, and
`segMain_stop` lifts them to the whole scanner loop (simultaneously showing
that the fuel argument is irrelevant once it exceeds the length of the part
before the NUL). -/

theorem getD_head_append_nul (a b b' : List Char) :
    (a ++ nulC :: b).head?.getD nulC = (a ++ nulC :: b').head?.getD nulC := by
  cases a <;> rfl

theorem getD_zero_append_nul (a b b' : List Char) :
    (a ++ nulC :: b).getD 0 nulC = (a ++ nulC :: b').getD 0 nulC := by
  cases a <;> rfl

theorem lineTextFrom_stop (a : List Char) : ∀ b b' : List Char,
    lineTextFrom (a ++ nulC :: b) = lineTextFrom (a ++ nulC :: b') := by
  induction a with
  | nil =>
    intro b b'
    simp only [List.nil_append]
    rw [lineTextFrom, lineTextFrom, if_pos (by decide), if_pos (by decide)]
  | cons c a ih =>
    intro b b'
    simp only [List.cons_append]
    rw [lineTextFrom, lineTextFrom, getD_head_append_nul a b b', ih b b']

theorem skipRestLen_stop (a : List Char) : ∀ b b' : List Char,
    skipRestLen (a ++ nulC :: b) = skipRestLen (a ++ nulC :: b') := by
  induction a with
  | nil =>
    intro b b'
    simp only [List.nil_append]
    rw [skipRestLen, skipRestLen, if_pos (by decide), if_pos (by decide)]
  | cons c a ih =>
    intro b b'
    simp only [List.cons_append]
    rw [skipRestLen, skipRestLen, getD_head_append_nul a b b', ih b b']

theorem skipRestLen_le (a : List Char) : ∀ b : List Char,
    skipRestLen (a ++ nulC :: b) ≤ a.length := by
  induction a with
  | nil =>
    intro b
    simp only [List.nil_append]
    rw [skipRestLen, if_pos (by decide)]
    exact Nat.zero_le _
  | cons c a ih =>
    intro b
    simp only [List.cons_append, List.length_cons]
    rw [skipRestLen]
    by_cases h1 : (c == nulC) = true
    · rw [if_pos h1]; exact Nat.zero_le _
    · rw [if_neg h1]
      by_cases h2 : (c == '\n') = true
      · rw [if_pos h2]; omega
      · rw [if_neg h2]
        by_cases h3 : (c == '\r' && (a ++ nulC :: b).head?.getD nulC == '\n') = true
        · rw [if_pos h3]
          cases a with
          | nil =>
            exfalso
            simp only [Bool.and_eq_true] at h3
            have hy : nulC = '\n' := eq_of_beq h3.2
            exact absurd hy (by decide)
          | cons x a' => simp only [List.length_cons]; omega
        · rw [if_neg h3]
          have := ih b
          omega

theorem labelLoop_stop (a : List Char) : ∀ (b b' : List Char) (ss sc : Bool),
    labelLoop (a ++ nulC :: b) ss sc = labelLoop (a ++ nulC :: b') ss sc := by
  induction a with
  | nil =>
    intro b b' ss sc
    simp only [List.nil_append]
    rw [labelLoop, labelLoop, if_pos (by simp), if_pos (by simp)]
  | cons c a ih =>
    intro b b' ss sc
    simp only [List.cons_append]
    rw [labelLoop, labelLoop, getD_head_append_nul a b b',
      ih b b' ss true, ih b b' true sc, ih b b' ss sc]

theorem isCaseLine_stop (ch : Char) (a b b' : List Char) :
    isCaseLine ch (a ++ nulC :: b) = isCaseLine ch (a ++ nulC :: b') := by
  match a with
  | [] =>
    have h : ∀ l : List Char, isCaseLine ch (nulC :: l) = false := by
      intro l
      simp [isCaseLine, List.take_succ_cons, List.cons_beq_cons, nulC]
    rw [List.nil_append, List.nil_append, h, h]
  | [x] =>
    have h : ∀ l : List Char, isCaseLine ch (x :: nulC :: l) = false := by
      intro l
      simp [isCaseLine, List.take_succ_cons, List.cons_beq_cons, nulC]
    simp only [List.cons_append, List.nil_append]
    rw [h, h]
  | [x, y] =>
    have h : ∀ l : List Char, isCaseLine ch (x :: y :: nulC :: l) = false := by
      intro l
      simp [isCaseLine, List.take_succ_cons, List.cons_beq_cons, nulC]
    simp only [List.cons_append, List.nil_append]
    rw [h, h]
  | x :: y :: z :: a4 =>
    simp only [List.cons_append]
    rw [isCaseLine, isCaseLine]
    simp only [List.take_succ_cons, List.take_zero, List.getD_cons_succ,
      getD_zero_append_nul a4 b b']

theorem wsSkip_stop (a : List Char) : ∀ b b' : List Char,
    wsSkip (a ++ nulC :: b) = wsSkip (a ++ nulC :: b') := by
  induction a with
  | nil =>
    intro b b'
    simp only [List.nil_append]
    rw [wsSkip, wsSkip, if_neg (by decide), if_neg (by decide)]
  | cons c a ih =>
    intro b b'
    simp only [List.cons_append]
    rw [wsSkip, wsSkip, ih b b']

theorem wsSkip_le (a : List Char) : ∀ b : List Char,
    (wsSkip (a ++ nulC :: b)).1 ≤ a.length := by
  induction a with
  | nil =>
    intro b
    simp only [List.nil_append]
    rw [wsSkip, if_neg (by decide)]
    exact Nat.zero_le _
  | cons c a ih =>
    intro b
    simp only [List.cons_append, List.length_cons]
    rw [wsSkip]
    by_cases h : (c == ' ' || c == '\t' || c == '\r') = true
    · rw [if_pos h]
      have := ih b
      exact show (wsSkip (a ++ nulC :: b)).1 + 1 ≤ a.length + 1 from by omega
    · rw [if_neg h]; exact Nat.zero_le _

theorem commentScan_stop (a : List Char) : ∀ (b b' : List Char) (pos col : Nat) (snl : Bool),
    commentScan (a ++ nulC :: b) pos col snl = commentScan (a ++ nulC :: b') pos col snl := by
  induction a with
  | nil =>
    intro b b' pos col snl
    simp only [List.nil_append]
    rw [commentScan, commentScan, if_pos (by decide), if_pos (by decide)]
  | cons c a ih =>
    intro b b' pos col snl
    simp only [List.cons_append]
    rw [commentScan, commentScan, getD_head_append_nul a b b',
      ih b b' (pos + 1) col true, ih b b' (pos + 1) col snl]

theorem commentScan_le (a : List Char) : ∀ (b : List Char) (pos col : Nat) (snl : Bool),
    (commentScan (a ++ nulC :: b) pos col snl).n ≤ a.length := by
  induction a with
  | nil =>
    intro b pos col snl
    simp only [List.nil_append]
    rw [commentScan, if_pos (by decide)]
    exact Nat.zero_le _
  | cons c a ih =>
    intro b pos col snl
    simp only [List.cons_append, List.length_cons]
    rw [commentScan]
    by_cases h1 : (c == nulC) = true
    · rw [if_pos h1]; exact Nat.zero_le _
    · rw [if_neg h1]
      by_cases h2 : (c == '*' && (a ++ nulC :: b).head?.getD nulC == '/') = true
      · rw [if_pos h2]
        cases a with
        | nil =>
          exfalso
          simp only [Bool.and_eq_true] at h2
          have hy : nulC = '/' := eq_of_beq h2.2
          exact absurd hy (by decide)
        | cons x a' =>
          simp only [List.length_cons]
          exact show 2 ≤ a'.length + 1 + 1 from by omega
      · rw [if_neg h2]
        by_cases h3 : (c == '\n') = true
        · rw [if_pos h3]
          have := ih b (pos + 1) col true
          exact show (commentScan (a ++ nulC :: b) (pos + 1) col true).n + 1 ≤ a.length + 1
            from by omega
        · rw [if_neg h3]
          have := ih b (pos + 1) col snl
          exact show (commentScan (a ++ nulC :: b) (pos + 1) col snl).n + 1 ≤ a.length + 1
            from by omega

theorem normalEvent_stop (ch : Char) (a b b' : List Char) (off col : Nat) (mayCtx : Bool)
    (tHead : Option Char) :
    normalEvent ch (a ++ nulC :: b) off col mayCtx tHead
      = normalEvent ch (a ++ nulC :: b') off col mayCtx tHead := by
  rw [normalEvent.eq_def, normalEvent.eq_def, getD_head_append_nul a b b',
    show isLabelForm (a ++ nulC :: b) = isLabelForm (a ++ nulC :: b')
      from labelLoop_stop a b b' false false,
    isCaseLine_stop ch a b b', lineTextFrom_stop a b b']

/-- The scanner never reads past a NUL byte, and its fuel argument is
irrelevant as long as it exceeds the number of characters before the NUL:
both scans of `a ++ nulC :: junk` produce the same events. -/
theorem segMain_stop (f1 : Nat) : ∀ (f2 : Nat) (a b b' : List Char) (pos col : Nat) (mc : Bool),
    a.length < f1 → a.length < f2 →
    segMain f1 (a ++ nulC :: b) pos col mc = segMain f2 (a ++ nulC :: b') pos col mc := by
  induction f1 with
  | zero => intro f2 a b b' pos col mc h1 h2; omega
  | succ f1 ih =>
    intro f2 a b b' pos col mc h1 h2
    cases f2 with
    | zero => omega
    | succ f2 =>
    cases a with
    | nil =>
      simp only [List.nil_append]
      rw [segMain, segMain, if_pos (show (nulC == nulC) = true from by decide),
        if_pos (show (nulC == nulC) = true from by decide)]
    | cons ch a =>
      simp only [List.length_cons] at h1 h2
      have h1' : a.length < f1 := by omega
      have h2' : a.length < f2 := by omega
      simp only [List.cons_append]
      rw [segMain, segMain]
      by_cases hnul : (ch == nulC) = true
      · rw [if_pos hnul, if_pos hnul]
      · rw [if_neg hnul, if_neg hnul]
        by_cases hn : (ch == '\n') = true
        · rw [if_pos hn, if_pos hn, ih f2 a b b' (pos + 1) 0 true h1' h2']
        · rw [if_neg hn, if_neg hn]
          by_cases ht : (ch == '\t') = true
          · rw [if_pos ht, if_pos ht, ih f2 a b b' (pos + 1) (tabNext col) mc h1' h2']
          · rw [if_neg ht, if_neg ht]
            by_cases hs : (ch == ' ') = true
            · rw [if_pos hs, if_pos hs, ih f2 a b b' (pos + 1) (col + 1) mc h1' h2']
            · rw [if_neg hs, if_neg hs]
              by_cases hr : (ch == '\r') = true
              · rw [if_pos hr, if_pos hr, ih f2 a b b' (pos + 1) col mc h1' h2']
              · rw [if_neg hr, if_neg hr]
                have hpk := getD_head_append_nul a b b'
                by_cases hc : (ch == '/' && (a ++ nulC :: b).head?.getD nulC == '*') = true
                · have hc2 : (ch == '/' && (a ++ nulC :: b').head?.getD nulC == '*') = true := by
                    rw [← hpk]; exact hc
                  rw [if_pos hc, if_pos hc2]
                  cases a with
                  | nil =>
                    exfalso
                    simp only [Bool.and_eq_true] at hc
                    have hy : nulC = '*' := eq_of_beq hc.2
                    exact absurd hy (by decide)
                  | cons c2 a2 =>
                    simp only [List.length_cons] at h1' h2'
                    simp only [List.cons_append, List.tail_cons]
                    rw [← commentScan_stop a2 b b' (pos + 2) col false]
                    have hle : (commentScan (a2 ++ nulC :: b) (pos + 2) col false).n ≤ a2.length :=
                      commentScan_le a2 b (pos + 2) col false
                    rw [List.drop_append_of_le_length hle, List.drop_append_of_le_length hle]
                    generalize hg2 : a2.drop (commentScan (a2 ++ nulC :: b) (pos + 2) col false).n = a3
                    have ha3 : a3.length ≤ a2.length := by
                      rw [← hg2, List.length_drop]; omega
                    by_cases hcl :
                        ((!(commentScan (a2 ++ nulC :: b) (pos + 2) col false).closed) = true)
                    · rw [if_pos hcl, if_pos hcl]
                    · rw [if_neg hcl, if_neg hcl]
                      by_cases hsn : ((commentScan (a2 ++ nulC :: b) (pos + 2) col false).seenNL = true)
                      · rw [if_pos hsn, if_pos hsn]
                        rw [← skipRestLen_stop a3 b b', ← lineTextFrom_stop a3 b b']
                        have hm2 : skipRestLen (a3 ++ nulC :: b) ≤ a3.length := skipRestLen_le a3 b
                        rw [List.drop_append_of_le_length hm2, List.drop_append_of_le_length hm2]
                        apply congrArg
                        apply congrArg
                        exact ih f2 _ b b' _ 0 true
                          (by rw [List.length_drop]; omega) (by rw [List.length_drop]; omega)
                      · rw [if_neg hsn, if_neg hsn]
                        rw [← wsSkip_stop a3 b b']
                        have hwle : (wsSkip (a3 ++ nulC :: b)).1 ≤ a3.length := wsSkip_le a3 b
                        rw [List.drop_append_of_le_length hwle, List.drop_append_of_le_length hwle]
                        generalize hg3 : a3.drop (wsSkip (a3 ++ nulC :: b)).1 = a4
                        have ha4 : a4.length ≤ a3.length := by
                          rw [← hg3, List.length_drop]; omega
                        rw [← getD_head_append_nul a4 b b']
                        by_cases hbl : ((a4 ++ nulC :: b).head?.getD nulC == '\n') = true
                        · rw [if_pos hbl, if_pos hbl]
                          cases a4 with
                          | nil =>
                            exfalso
                            have hy : nulC = '\n' := eq_of_beq hbl
                            exact absurd hy (by decide)
                          | cons x4 a4' =>
                            simp only [List.cons_append, List.tail_cons] at *
                            simp only [List.length_cons] at ha4
                            apply congrArg
                            apply congrArg
                            exact ih f2 a4' b b' _ 0 true (by omega) (by omega)
                        · rw [if_neg hbl, if_neg hbl]
                          by_cases hn4 : ((a4 ++ nulC :: b).head?.getD nulC == nulC) = true
                          · rw [if_pos hn4, if_pos hn4]
                          · rw [if_neg hn4, if_neg hn4]
                            rw [← skipRestLen_stop a4 b b', ← normalEvent_stop '/' a4 b b']
                            have hm4 : skipRestLen (a4 ++ nulC :: b) ≤ a4.length :=
                              skipRestLen_le a4 b
                            rw [List.drop_append_of_le_length hm4,
                              List.drop_append_of_le_length hm4]
                            apply congrArg
                            apply congrArg
                            exact ih f2 _ b b' _ 0 true
                              (by rw [List.length_drop]; omega) (by rw [List.length_drop]; omega)
                · have hc2 : ¬ ((ch == '/' && (a ++ nulC :: b').head?.getD nulC == '*') = true) := by
                    rw [← hpk]; exact hc
                  rw [if_neg hc, if_neg hc2]
                  simp only []
                  rw [← skipRestLen_stop a b b', ← normalEvent_stop ch a b b']
                  have hm : skipRestLen (a ++ nulC :: b) ≤ a.length := skipRestLen_le a b
                  rw [List.drop_append_of_le_length hm, List.drop_append_of_le_length hm]
                  apply congrArg
                  exact ih f2 _ b b' _ 0 true
                    (by rw [List.length_drop]; omega) (by rw [List.length_drop]; omega)

theorem preNul_cons (c : Char) (l : List Char) :
    preNul (c :: l) = if (c == nulC) = true then [] else c :: preNul l := by
  cases h : (c == nulC) with
  | true =>
    rw [preNul, List.takeWhile_cons, h, Bool.not_true, if_neg Bool.false_ne_true, if_pos rfl]
  | false =>
    rw [preNul, List.takeWhile_cons, h, Bool.not_false, if_pos rfl, if_neg Bool.false_ne_true]
    rfl

theorem preNul_append_nul (l1 l2 : List Char) : preNul (l1 ++ nulC :: l2) = preNul l1 := by
  induction l1 with
  | nil =>
    rw [List.nil_append, preNul_cons, if_pos (by decide)]
    rfl
  | cons c l1 ih =>
    rw [List.cons_append, preNul_cons, preNul_cons, ih]

theorem preNul_of_not_nul (file : List Char) (h : hasNul file = false) : preNul file = file := by
  induction file with
  | nil => rfl
  | cons c l ih =>
    simp only [hasNul, List.any_cons, Bool.or_eq_false_iff] at h
    rw [preNul_cons, if_neg (by rw [h.1]; exact Bool.false_ne_true), ih h.2]

theorem hasNul_append_nul (l1 l2 : List Char) : hasNul (l1 ++ nulC :: l2) = true := by
  simp [hasNul]

/-- The scan of a buffer with an embedded NUL equals the scan of the part
before the NUL (terminated by that NUL): nothing beyond the NUL is read. -/
theorem eventsOf_nul_stop (l1 l2 : List Char) :
    eventsOf (l1 ++ nulC :: l2) = eventsOf (l1 ++ [nulC]) := by
  have hp1 : preprocessed (l1 ++ nulC :: l2) = l1 ++ nulC :: l2 := by
    rw [preprocessed, hasNul_append_nul]
    simp
  have hp2 : preprocessed (l1 ++ [nulC]) = l1 ++ [nulC] := by
    rw [preprocessed, show l1 ++ [nulC] = l1 ++ nulC :: [] from rfl, hasNul_append_nul]
    simp
  rw [eventsOf, eventsOf, hp1, hp2]
  exact segMain_stop _ _ l1 l2 [] 0 0 true
    (by rw [List.length_append, List.length_cons]; omega)
    (by rw [List.length_append, List.length_cons, List.length_nil]; omega)

/-- **C9**: for a NUL-free buffer whose last byte is not a newline, the line
count is the newline count plus one extra final line, and the scanner sees an
implicit terminal newline (the preprocessed buffer is the file plus `'\n'`);
for a buffer with an embedded NUL byte, only the newlines before the first NUL
are counted, and the produced events equal those of the prefix before the NUL
— no lines beyond the NUL are counted or produced. -/
theorem c9_line_counting :
    (∀ file : List Char, hasNul file = false → file.isEmpty = false →
      (file.getLastD nulC == '\n') = false →
      nLines file = file.countP (fun c => c == '\n') + 1 ∧
      preprocessed file = file ++ ['\n']) ∧
    (∀ l1 l2 : List Char,
      nLines (l1 ++ nulC :: l2) = (preNul l1).countP (fun c => c == '\n') ∧
      eventsOf (l1 ++ nulC :: l2) = eventsOf (l1 ++ [nulC])) := by
  constructor
  · intro file h1 h2 h3
    constructor
    · rw [nLines, preNul_of_not_nul file h1, h1, h2, h3]
      simp
    · rw [preprocessed, h1, h2, h3]
      simp
  · intro l1 l2
    refine ⟨?_, eventsOf_nul_stop l1 l2⟩
    rw [nLines, preNul_append_nul, hasNul_append_nul]
    simp

theorem c9_line_counting_witness :
    nLines ['a'] = 1 ∧
    nLines (['a', '\n', 'b'] ++ nulC :: ['\n', 'c']) = 1 ∧
    eventsOf (['a', '\n', 'b'] ++ nulC :: ['\n', 'c']) = eventsOf (['a', '\n', 'b'] ++ [nulC]) := by
  refine ⟨?_, ?_, (c9_line_counting.2 ['a', '\n', 'b'] ['\n', 'c']).2⟩
  · rw [(c9_line_counting.1 ['a'] (by decide) (by decide) (by decide)).1]
    decide
  · rw [(c9_line_counting.2 ['a', '\n', 'b'] ['\n', 'c']).1]
    decide

/-! ### Claim C10: the two output modes

The single-target mode prints exactly the non-elided context labels followed
by the optional `"..."` marker — no header, no newline anywhere in the
output.  The newline-freeness rests on a provenance chain: stored line texts
never contain `'\n'` (the scanner always stops a line's text at the
newline), and the formatter only ever emits input characters, spaces, `'$'`,
digits and fixed punctuation. -/

theorem lineTextFrom_no_nl (l : List Char) : '\n' ∉ lineTextFrom l := by
  induction l with
  | nil => rw [lineTextFrom]; exact List.not_mem_nil '\n'
  | cons c rest ih =>
    rw [lineTextFrom]
    by_cases h1 : (c == nulC || c == '\n') = true
    · rw [if_pos h1]; exact List.not_mem_nil '\n'
    · rw [if_neg h1]
      by_cases h2 : (c == '\r' && rest.head?.getD nulC == '\n') = true
      · rw [if_pos h2]; exact List.not_mem_nil '\n'
      · rw [if_neg h2]
        intro hmem
        rcases List.mem_cons.mp hmem with h | h
        · simp only [Bool.or_eq_true, not_or] at h1
          exact absurd (h ▸ (beq_self_eq_true '\n')) h1.2
        · exact ih h

theorem wsSkip_snd_no_nl (l : List Char) : ∀ w, (wsSkip l).2 = some w → ¬ w = '\n' := by
  induction l with
  | nil => intro w hw; exact absurd hw (by rw [wsSkip]; simp)
  | cons c rest ih =>
    intro w hw
    rw [wsSkip] at hw
    by_cases h : (c == ' ' || c == '\t' || c == '\r') = true
    · rw [if_pos h] at hw
      simp only [] at hw
      cases hrec : (wsSkip rest).2 with
      | none =>
        rw [hrec] at hw
        simp only [Option.getD_none, Option.some.injEq] at hw
        subst hw
        simp only [Bool.or_eq_true] at h
        rcases h with (h | h) | h <;>
          · intro hc
            rw [hc] at h
            exact absurd (eq_of_beq h) (by decide)
      | some w' =>
        rw [hrec] at hw
        simp only [Option.getD_some, Option.some.injEq] at hw
        subst hw
        exact ih w' hrec
    · rw [if_neg h] at hw
      exact absurd hw (by simp)

theorem commentScan_evs_text (a : List Char) :
    ∀ pos col snl ev, ev ∈ (commentScan a pos col snl).evs → ev.text = [] := by
  induction a with
  | nil =>
    intro pos col snl ev hev
    rw [commentScan] at hev
    exact absurd hev (List.not_mem_nil ev)
  | cons c rest ih =>
    intro pos col snl ev hev
    rw [commentScan] at hev
    by_cases h1 : (c == nulC) = true
    · rw [if_pos h1] at hev
      exact absurd hev (List.not_mem_nil ev)
    · rw [if_neg h1] at hev
      by_cases h2 : (c == '*' && rest.head?.getD nulC == '/') = true
      · rw [if_pos h2] at hev
        exact absurd hev (List.not_mem_nil ev)
      · rw [if_neg h2] at hev
        by_cases h3 : (c == '\n') = true
        · rw [if_pos h3] at hev
          simp only [] at hev
          rcases List.mem_cons.mp hev with h | h
          · rw [h]
          · exact ih (pos + 1) col true ev h
        · rw [if_neg h3] at hev
          simp only [] at hev
          exact ih (pos + 1) col snl ev hev

theorem normalEvent_no_nl (ch : Char) (rest : List Char) (off col : Nat) (mayCtx : Bool)
    (tHead : Option Char) (h : ∀ c, tHead = some c → ¬ c = '\n') :
    '\n' ∉ (normalEvent ch rest off col mayCtx tHead).text := by
  cases tHead with
  | none => simp [normalEvent]
  | some c =>
    simp only [normalEvent]
    intro hmem
    rcases List.mem_cons.mp hmem with hx | hx
    · exact h c rfl hx.symm
    · exact lineTextFrom_no_nl rest hx

/-- No event produced by the scanner carries a `'\n'` in its stored text. -/
theorem segMain_text_no_nl (fuel : Nat) : ∀ (l : List Char) (pos col : Nat) (mc : Bool)
    (ev : Ev), ev ∈ segMain fuel l pos col mc → '\n' ∉ ev.text := by
  induction fuel with
  | zero =>
    intro l pos col mc ev hev
    rw [segMain] at hev
    exact absurd hev (List.not_mem_nil ev)
  | succ fuel ih =>
    intro l pos col mc ev hev
    cases l with
    | nil =>
      rw [segMain] at hev
      exact absurd hev (List.not_mem_nil ev)
    | cons ch rest =>
      rw [segMain] at hev
      by_cases hnul : (ch == nulC) = true
      · rw [if_pos hnul] at hev
        exact absurd hev (List.not_mem_nil ev)
      · rw [if_neg hnul] at hev
        by_cases hn : (ch == '\n') = true
        · rw [if_pos hn] at hev
          rcases List.mem_cons.mp hev with h | h
          · rw [h]; exact List.not_mem_nil '\n'
          · exact ih rest (pos + 1) 0 true ev h
        · rw [if_neg hn] at hev
          by_cases ht : (ch == '\t') = true
          · rw [if_pos ht] at hev
            exact ih rest (pos + 1) (tabNext col) mc ev hev
          · rw [if_neg ht] at hev
            by_cases hs : (ch == ' ') = true
            · rw [if_pos hs] at hev
              exact ih rest (pos + 1) (col + 1) mc ev hev
            · rw [if_neg hs] at hev
              by_cases hr : (ch == '\r') = true
              · rw [if_pos hr] at hev
                exact ih rest (pos + 1) col mc ev hev
              · rw [if_neg hr] at hev
                by_cases hc : (ch == '/' && rest.head?.getD nulC == '*') = true
                · rw [if_pos hc] at hev
                  simp only [] at hev
                  by_cases hcl :
                      ((!(commentScan rest.tail (pos + 2) col false).closed) = true)
                  · rw [if_pos hcl] at hev
                    rw [commentScan_evs_text rest.tail (pos + 2) col false ev hev]
                    exact List.not_mem_nil '\n'
                  · rw [if_neg hcl] at hev
                    by_cases hsn : ((commentScan rest.tail (pos + 2) col false).seenNL = true)
                    · rw [if_pos hsn] at hev
                      rw [List.mem_append] at hev
                      rcases hev with h | h
                      · rw [commentScan_evs_text rest.tail (pos + 2) col false ev h]
                        exact List.not_mem_nil '\n'
                      · rcases List.mem_cons.mp h with h | h
                        · rw [h]
                          exact lineTextFrom_no_nl _
                        · exact ih _ _ 0 true ev h
                    · rw [if_neg hsn] at hev
                      by_cases hbl :
                          (((rest.tail.drop (commentScan rest.tail (pos + 2) col false).n).drop
                              (wsSkip (rest.tail.drop
                                (commentScan rest.tail (pos + 2) col false).n)).1).head?.getD nulC
                            == '\n') = true
                      · rw [if_pos hbl] at hev
                        rw [List.mem_append] at hev
                        rcases hev with h | h
                        · rw [commentScan_evs_text rest.tail (pos + 2) col false ev h]
                          exact List.not_mem_nil '\n'
                        · rcases List.mem_cons.mp h with h | h
                          · rw [h]; exact List.not_mem_nil '\n'
                          · exact ih _ _ 0 true ev h
                      · rw [if_neg hbl] at hev
                        by_cases hn4 :
                            (((rest.tail.drop (commentScan rest.tail (pos + 2) col false).n).drop
                                (wsSkip (rest.tail.drop
                                  (commentScan rest.tail (pos + 2) col false).n)).1).head?.getD nulC
                              == nulC) = true
                        · rw [if_pos hn4] at hev
                          rw [commentScan_evs_text rest.tail (pos + 2) col false ev hev]
                          exact List.not_mem_nil '\n'
                        · rw [if_neg hn4] at hev
                          rw [List.mem_append] at hev
                          rcases hev with h | h
                          · rw [commentScan_evs_text rest.tail (pos + 2) col false ev h]
                            exact List.not_mem_nil '\n'
                          · rcases List.mem_cons.mp h with h | h
                            · rw [h]
                              refine normalEvent_no_nl '/' _ _ col mc _ ?_
                              intro c hcc
                              cases hw : (wsSkip (rest.tail.drop
                                  (commentScan rest.tail (pos + 2) col false).n)).2 with
                              | none =>
                                rw [hw] at hcc
                                simp only [Option.some.injEq] at hcc
                                rw [← hcc]
                                decide
                              | some w =>
                                rw [hw] at hcc
                                simp only [] at hcc
                                by_cases hwr : (w == '\r') = true
                                · rw [if_pos hwr] at hcc
                                  exact absurd hcc (by simp)
                                · rw [if_neg hwr] at hcc
                                  simp only [Option.some.injEq] at hcc
                                  rw [← hcc]
                                  exact wsSkip_snd_no_nl _ w hw
                            · exact ih _ _ 0 true ev h
                · rw [if_neg hc] at hev
                  simp only [] at hev
                  rcases List.mem_cons.mp hev with h | h
                  · rw [h]
                    refine normalEvent_no_nl ch rest pos col _ (some ch) ?_
                    intro c hcc
                    simp only [Option.some.injEq] at hcc
                    intro hce
                    exact hn (by rw [hcc.trans hce]; exact beq_self_eq_true '\n')
                  · exact ih _ _ 0 true ev h

theorem buildStep_recs (st : BState) (ev : Ev) :
    (buildStep st ev).recs = st.recs ++ [stepRec st ev] := by
  rw [buildStep]
  split <;> rfl

/-- Texts of built records all come from event texts. -/
theorem foldl_recs_text (P : List Char → Prop) : ∀ (evs : List Ev) (st : BState),
    (∀ r ∈ st.recs, P r.text) → (∀ ev ∈ evs, P ev.text) →
    ∀ r ∈ (List.foldl buildStep st evs).recs, P r.text := by
  intro evs
  induction evs with
  | nil => intro st hst _ r hr; exact hst r hr
  | cons ev evs ih =>
    intro st hst hev r hr
    rw [List.foldl_cons] at hr
    refine ih (buildStep st ev) ?_ (fun e he => hev e (List.mem_cons_of_mem ev he)) r hr
    intro r' hr'
    rw [buildStep_recs] at hr'
    rw [List.mem_append] at hr'
    rcases hr' with h | h
    · exact hst r' h
    · rw [List.mem_singleton.mp h, stepRec]
      exact hev ev (List.mem_cons_self ev evs)

theorem recsOf_text_no_nl (file : List Char) : ∀ r ∈ recsOf file, '\n' ∉ r.text := by
  intro r hr
  refine foldl_recs_text (fun t => '\n' ∉ t) (eventsOf file) initB ?_ ?_ r hr
  · intro r' hr'
    exact absurd hr' (List.not_mem_nil r')
  · intro ev hev
    exact segMain_text_no_nl _ _ 0 0 true ev hev

theorem recsOf_getD_no_nl (file : List Char) (i : Nat) :
    '\n' ∉ ((recsOf file).getD i dfltRec).text := by
  by_cases h : i < (recsOf file).length
  · rw [List.getD_eq_getElem _ _ h]
    exact recsOf_text_no_nl file _ (List.getElem_mem h)
  · rw [List.getD_eq_default _ _ (by omega)]
    exact List.not_mem_nil '\n'

theorem stripNS_subset : ∀ (fuel : Nat) (t : List Char), stripNS fuel t ⊆ t := by
  intro fuel
  induction fuel with
  | zero => intro t; rw [stripNS]; exact fun c h => h
  | succ fuel ih =>
    intro t
    rw [stripNS]
    by_cases h : ("namespace ".toList.isPrefixOf t) = true
    · rw [if_pos h]
      exact fun c hc => List.drop_subset 10 t (ih (t.drop 10) hc)
    · rw [if_neg h]
      exact fun c hc => hc

/-- Every character the copying loop emits is an input character, a collapsed
space, or the `'$'` marker. -/
theorem pcRun_mem : ∀ (t : List Char) (ctrl : Bool) (s : PCState) (c : Char),
    c ∈ pcRun ctrl s t → c = ' ' ∨ c = dollarC ∨ c ∈ t := by
  intro t
  induction t with
  | nil =>
    intro ctrl s c hc
    rw [pcRun] at hc
    exact absurd hc (List.not_mem_nil c)
  | cons ch rest ih =>
    intro ctrl s c hc
    rw [pcRun] at hc
    by_cases h1 : (ch == nulC) = true
    · rw [if_pos h1] at hc
      exact absurd hc (List.not_mem_nil c)
    · rw [if_neg h1] at hc
      by_cases h2 : isspaceC ch = true
      · rw [if_pos h2] at hc
        rcases ih ctrl _ c hc with h | h | h
        · exact Or.inl h
        · exact Or.inr (Or.inl h)
        · exact Or.inr (Or.inr (List.mem_cons_of_mem ch h))
      · rw [if_neg h2] at hc
        by_cases h3 : (ch == '/' && rest.head?.getD nulC == '/') = true
        · rw [if_pos h3] at hc
          exact absurd hc (List.not_mem_nil c)
        · rw [if_neg h3] at hc
          have hspc : ∀ x, x ∈ (if s.prevWasSpace && isalnumC s.beforeSpace
              then [' '] else ([] : List Char)) → x = ' ' := by
            intro x hx
            by_cases hcond : (s.prevWasSpace && isalnumC s.beforeSpace) = true
            · rw [if_pos hcond] at hx
              exact List.mem_singleton.mp hx
            · rw [if_neg hcond] at hx
              exact absurd hx (List.not_mem_nil x)
          have htail : ∀ (cond : Bool) (s' : PCState),
              c ∈ (if cond = true then ([] : List Char) else pcRun ctrl s' rest) →
              c = ' ' ∨ c = dollarC ∨ c ∈ ch :: rest := by
            intro cond s' hx
            by_cases hcap : cond = true
            · rw [if_pos hcap] at hx
              exact absurd hx (List.not_mem_nil c)
            · rw [if_neg hcap] at hx
              rcases ih ctrl s' c hx with h | h | h
              · exact Or.inl h
              · exact Or.inr (Or.inl h)
              · exact Or.inr (Or.inr (List.mem_cons_of_mem ch h))
          by_cases h4 : isIdentC ch = true
          · rw [if_pos h4] at hc
            simp only [] at hc
            by_cases h5 : (!s.couldFn && s.identLen == 6) = true
            · rw [if_pos h5] at hc
              rw [List.mem_append] at hc
              rcases hc with h | h
              · exact Or.inl (hspc c h)
              · rcases List.mem_cons.mp h with h | h
                · exact Or.inr (Or.inl h)
                · exact htail _ _ h
            · rw [if_neg h5] at hc
              by_cases h6 : (s.couldFn || decide (s.identLen < 6)) = true
              · rw [if_pos h6] at hc
                rw [List.mem_append] at hc
                rcases hc with h | h
                · exact Or.inl (hspc c h)
                · rcases List.mem_cons.mp h with h | h
                  · exact Or.inr (Or.inr (h ▸ List.mem_cons_self ch rest))
                  · exact htail _ _ h
              · rw [if_neg h6] at hc
                rw [List.mem_append] at hc
                rcases hc with h | h
                · exact Or.inl (hspc c h)
                · exact htail _ _ h
          · rw [if_neg h4] at hc
            by_cases h7 : (ch == '(' && s.couldFn) = true
            · rw [if_pos h7] at hc
              exact Or.inr (Or.inr (List.mem_singleton.mp hc ▸ List.mem_cons_self ch rest))
            · rw [if_neg h7] at hc
              simp only [] at hc
              rcases List.mem_cons.mp hc with h | h
              · exact Or.inr (Or.inr (h ▸ List.mem_cons_self ch rest))
              · exact htail _ _ h

theorem natDigitsAux_mem : ∀ (fuel n : Nat) (acc : List Char) (c : Char),
    c ∈ natDigitsAux fuel n acc → (∃ d, d < 10 ∧ c = digitChar d) ∨ c ∈ acc := by
  intro fuel
  induction fuel with
  | zero =>
    intro n acc c hc
    rw [natDigitsAux] at hc
    exact Or.inr hc
  | succ fuel ih =>
    intro n acc c hc
    rw [natDigitsAux] at hc
    by_cases h : n < 10
    · rw [if_pos h] at hc
      rcases List.mem_cons.mp hc with h' | h'
      · exact Or.inl ⟨n, h, h'⟩
      · exact Or.inr h'
    · rw [if_neg h] at hc
      rcases ih (n / 10) _ c hc with h' | h'
      · exact Or.inl h'
      · rcases List.mem_cons.mp h' with h'' | h''
        · exact Or.inl ⟨n % 10, Nat.mod_lt n (by omega), h''⟩
        · exact Or.inr h''

theorem natDigits_no_nl (n : Nat) : '\n' ∉ natDigits n := by
  intro hmem
  rcases natDigitsAux_mem (n + 1) n [] '\n' hmem with ⟨d, hd, he⟩ | h
  · have : ∀ d, d < 10 → ¬ digitChar d = '\n' := by decide
    exact this d hd he.symm
  · exact List.not_mem_nil '\n' h

theorem renderLabel_no_nl (t : List Char) (h : '\n' ∉ t) : '\n' ∉ renderLabel t := by
  intro hmem
  rcases pcRun_mem _ _ _ '\n' hmem with h' | h' | h'
  · exact absurd h' (by decide)
  · exact absurd h' (by decide)
  · exact h (stripNS_subset t.length t h')

theorem printContext_no_nl (idx : Nat) (t : List Char) (h : '\n' ∉ t) :
    '\n' ∉ printContext idx t := by
  rw [printContext]
  intro hmem
  rcases List.mem_cons.mp hmem with h' | h'
  · exact absurd h' (by decide)
  rcases List.mem_cons.mp h' with h'' | h''
  · exact absurd h'' (by decide)
  rw [List.mem_append] at h''
  rcases h'' with h3 | h3
  · exact natDigits_no_nl (idx + 1) h3
  rcases List.mem_cons.mp h3 with h4 | h4
  · exact absurd h4 (by decide)
  rcases List.mem_cons.mp h4 with h5 | h5
  · exact absurd h5 (by decide)
  · exact renderLabel_no_nl t h h5

theorem emitLoop_no_nl (recs : List LineRec) (target : Nat) :
    ∀ (cs : List Nat) (sk : Bool),
      (∀ i ∈ cs, '\n' ∉ (recs.getD i dfltRec).text) →
      '\n' ∉ (emitLoop recs target cs sk).1 := by
  intro cs
  induction cs with
  | nil =>
    intro sk _
    rw [emitLoop]
    exact List.not_mem_nil '\n'
  | cons c cs ih =>
    intro sk hcs
    rw [emitLoop]
    by_cases h : elide target c = true
    · rw [if_pos h]
      exact ih true (fun i hi => hcs i (List.mem_cons_of_mem c hi))
    · rw [if_neg h]
      simp only []
      intro hmem
      rw [List.mem_append] at hmem
      rcases hmem with h' | h'
      · exact printContext_no_nl c _ (hcs c (List.mem_cons_self c cs)) h'
      · exact ih false (fun i hi => hcs i (List.mem_cons_of_mem c hi)) h'

/-- **C10**: with a positive line number the program's whole standard output
is exactly the non-elided context labels of the target line followed by the
optional `"..."` marker — no per-line header anywhere and no newline at all
(in particular no terminating newline); with line number `0` the output is
one line per input line, each prefixed by the fixed-width header and
terminated by `'\n'`. -/
theorem c10_output_modes :
    (∀ (file : List Char) (q : Nat), q ≠ 0 →
      programOutput file q =
        (emitLoop (recsOf file) (q - 1) (chainOf (recsOf file) (q - 1)) false).1
          ++ (if (emitLoop (recsOf file) (q - 1) (chainOf (recsOf file) (q - 1)) false).2
              then ['.', '.', '.'] else []) ∧
      '\n' ∉ programOutput file q) ∧
    (∀ file : List Char,
      programOutput file 0 =
        ((List.range (nLines file)).map
          (fun i =>
            headerOf (recsOf file) i
              ++ (emitLoop (recsOf file) i (chainOf (recsOf file) i) false).1
              ++ (if (emitLoop (recsOf file) i (chainOf (recsOf file) i) false).2
                  then ['.', '.', '.'] else [])
              ++ ['\n'])).flatten) := by
  constructor
  · intro file q hq
    have hout : programOutput file q =
        (emitLoop (recsOf file) (q - 1) (chainOf (recsOf file) (q - 1)) false).1
          ++ (if (emitLoop (recsOf file) (q - 1) (chainOf (recsOf file) (q - 1)) false).2
              then ['.', '.', '.'] else []) := by
      rw [programOutput]
      rw [queryRange, if_pos hq]
      rw [show q - (q - 1) = 1 from by omega, List.range'_one, List.map_cons, List.map_nil,
        List.flatten_cons, List.flatten_nil, List.append_nil, lineOutput]
      simp only []
      rw [show (q == 0) = false from beq_eq_false_iff_ne.mpr hq]
      simp only [Bool.false_eq_true, if_false, List.nil_append, List.append_nil]
    refine ⟨hout, ?_⟩
    rw [hout]
    intro hmem
    rw [List.mem_append] at hmem
    rcases hmem with h | h
    · exact emitLoop_no_nl (recsOf file) (q - 1) _ false
        (fun i _ => recsOf_getD_no_nl file i) h
    · by_cases h2 : (emitLoop (recsOf file) (q - 1) (chainOf (recsOf file) (q - 1)) false).2 = true
      · rw [if_pos h2] at h
        exact absurd h (by decide)
      · rw [if_neg h2] at h
        exact List.not_mem_nil '\n' h
  · intro file
    rw [programOutput]
    rw [queryRange, if_neg (by omega)]
    rw [Nat.sub_zero, ← List.range_eq_range' (nLines file)]
    refine congrArg List.flatten (List.map_congr_left ?_)
    intro i _
    rw [lineOutput]
    rw [if_pos (show ((0 : Nat) == 0) = true from rfl),
      if_pos (show ((0 : Nat) == 0) = true from rfl)]

theorem c10_output_modes_witness :
    programOutput ['a'] 1 = [] ∧ '\n' ∉ programOutput ['a'] 1 ∧
    programOutput ['a'] 0 = headerOf (recsOf ['a']) 0 ++ ['\n'] := by
  have h1 := c10_output_modes.1 ['a'] 1 (by decide)
  have h2 := c10_output_modes.2 ['a']
  refine ⟨?_, h1.2, ?_⟩
  · rw [h1.1]; decide
  · rw [h2]; decide

end Whereami
